import Mathlib

/-!
Verification of the Kilat-Tutor task-orchestration core against its
specification.  The definitions below are shallow embeddings of the
TypeScript sources:

* `RateLimiter`   — src/lib/ai/distributed-rate-limiter.ts
* `Cache`        — src/lib/cache/persistent-cache.ts
* `Orchestrator` — src/lib/orchestrator/multi-agent.ts

Machine integers and timestamps are modelled as `Int` (JavaScript numbers
used as integral millisecond counters), provider calls and other external
effects as explicit oracles, and Redis / in-memory maps as explicit state
records passed through each operation.
-/

namespace RateLimiter

/-- Per-provider limits, mirroring the entries of `PROVIDER_LIMITS`. -/
structure Limits where
  maxRPM : Nat
  maxConcurrent : Nat
  windowMs : Nat
deriving DecidableEq, Repr

/-- The result record returned by `checkLimit` (the optional
`queuePosition` field is never set by the source and is omitted). -/
structure RateLimitResult where
  allowed : Bool
  remaining : Int
  resetMs : Int
deriving DecidableEq, Repr

/-- The three Redis keys `ratelimit:{provider}:{window|count|concurrent}`
for one provider; `none` models an absent key. -/
structure RedisState where
  window : Option Int
  count : Option Int
  concurrent : Option Int
deriving DecidableEq, Repr

/-- JavaScript truthiness test for the stored window start
(`!windowStart` is true for `null` and for `0`). -/
def windowFalsy : Option Int → Bool
  | none => true
  | some w => w == 0

/-- Shallow embedding of `checkRedisLimit`: one `checkLimit` round on the
shared store, with all `Date.now()` reads collapsed to the single `now`
argument. -/
def checkRedisLimit (limits : Limits) (now : Int) (st : RedisState) :
    RedisState × RateLimitResult :=
  if windowFalsy st.window = true ∨ now - st.window.getD 0 ≥ (limits.windowMs : Int) then
    ({ window := some now, count := some 1, concurrent := st.concurrent },
     { allowed := true, remaining := (limits.maxRPM : Int) - 1,
       resetMs := (limits.windowMs : Int) })
  else if st.count.getD 0 ≥ (limits.maxRPM : Int) then
    (st, { allowed := false, remaining := 0,
           resetMs := (limits.windowMs : Int) - (now - st.window.getD 0) })
  else if st.concurrent.getD 0 ≥ (limits.maxConcurrent : Int) then
    (st, { allowed := false, remaining := (limits.maxRPM : Int) - st.count.getD 0,
           resetMs := 1000 })
  else
    ({ window := st.window, count := some (st.count.getD 0 + 1),
       concurrent := some (st.concurrent.getD 0 + 1) },
     { allowed := true, remaining := (limits.maxRPM : Int) - st.count.getD 0 - 1,
       resetMs := (limits.windowMs : Int) - (now - st.window.getD 0) })

/-- One entry of the in-memory `localCounts` map. -/
structure LocalWindow where
  count : Int
  windowStart : Int
deriving DecidableEq, Repr

/-- The local per-instance fallback state for one provider:
its `localCounts` entry and its `localConcurrent` counter
(`get(provider) || 0` is modelled by starting the counter at `0`). -/
structure LocalState where
  window : Option LocalWindow
  concurrent : Int
deriving DecidableEq, Repr

/-- The RPM budget after the local division by an estimated instance
count: `Math.max(5, Math.floor(maxRPM / 5))`. -/
def instLimit (limits : Limits) : Int := ((max 5 (limits.maxRPM / 5) : Nat) : Int)

/-- The concurrency budget after the local division:
`Math.max(2, Math.floor(maxConcurrent / 3))`. -/
def instConc (limits : Limits) : Int := ((max 2 (limits.maxConcurrent / 3) : Nat) : Int)

/-- Shallow embedding of `checkLocalLimit`. -/
def checkLocalLimit (limits : Limits) (now : Int) (st : LocalState) :
    LocalState × RateLimitResult :=
  match st.window with
  | none =>
      ({ window := some ⟨1, now⟩, concurrent := st.concurrent },
       { allowed := true, remaining := (limits.maxRPM : Int) - 1,
         resetMs := (limits.windowMs : Int) })
  | some w =>
      if now - w.windowStart ≥ (limits.windowMs : Int) then
        ({ window := some ⟨1, now⟩, concurrent := st.concurrent },
         { allowed := true, remaining := (limits.maxRPM : Int) - 1,
           resetMs := (limits.windowMs : Int) })
      else if w.count ≥ instLimit limits then
        (st, { allowed := false, remaining := 0,
               resetMs := (limits.windowMs : Int) - (now - w.windowStart) })
      else if st.concurrent ≥ instConc limits then
        (st, { allowed := false, remaining := instLimit limits - w.count,
               resetMs := 500 })
      else
        ({ window := some ⟨w.count + 1, w.windowStart⟩,
           concurrent := st.concurrent + 1 },
         { allowed := true, remaining := instLimit limits - (w.count + 1),
           resetMs := (limits.windowMs : Int) - (now - w.windowStart) })

/-- `releaseSlot`'s effect on the shared concurrency key:
decrement when present and positive, delete when present and
non-positive, leave absent keys absent. -/
def releaseRedisConcurrent : Option Int → Option Int
  | none => none
  | some c => if 0 < c then some (c - 1) else none

/-- `releaseSlot`'s effect on the local concurrency counter. -/
def releaseLocalConcurrent (c : Int) : Int :=
  if 0 < c then c - 1 else c

/-- Running several `checkLimit` rounds on the shared store, collecting
each round's result. -/
def runRedis (limits : Limits) : List Int → RedisState →
    RedisState × List RateLimitResult
  | [], st => (st, [])
  | t :: ts, st =>
      ((runRedis limits ts (checkRedisLimit limits t st).1).1,
       (checkRedisLimit limits t st).2 ::
         (runRedis limits ts (checkRedisLimit limits t st).1).2)

lemma checkRedisLimit_fresh (limits : Limits) (now : Int) (st : RedisState)
    (h : windowFalsy st.window = true ∨
      now - st.window.getD 0 ≥ (limits.windowMs : Int)) :
    checkRedisLimit limits now st =
      ({ window := some now, count := some 1, concurrent := st.concurrent },
       { allowed := true, remaining := (limits.maxRPM : Int) - 1,
         resetMs := (limits.windowMs : Int) }) := by
  unfold checkRedisLimit
  rw [if_pos h]

lemma checkRedisLimit_deny_rpm (limits : Limits) (now : Int) (st : RedisState)
    (hfresh : ¬(windowFalsy st.window = true ∨
      now - st.window.getD 0 ≥ (limits.windowMs : Int)))
    (hcount : st.count.getD 0 ≥ (limits.maxRPM : Int)) :
    checkRedisLimit limits now st =
      (st, { allowed := false, remaining := 0,
             resetMs := (limits.windowMs : Int) - (now - st.window.getD 0) }) := by
  unfold checkRedisLimit
  rw [if_neg hfresh, if_pos hcount]

lemma checkRedisLimit_concurrent_cases (limits : Limits) (now : Int)
    (st : RedisState) :
    (checkRedisLimit limits now st).1.concurrent = st.concurrent ∨
    (checkRedisLimit limits now st).1.concurrent
      = some (st.concurrent.getD 0 + 1) := by
  unfold checkRedisLimit
  split_ifs <;> simp

lemma checkLocalLimit_concurrent_cases (limits : Limits) (now : Int)
    (st : LocalState) :
    (checkLocalLimit limits now st).1.concurrent = st.concurrent ∨
    (checkLocalLimit limits now st).1.concurrent = st.concurrent + 1 := by
  obtain ⟨win, conc⟩ := st
  cases win with
  | none => left; rfl
  | some w =>
      simp only [checkLocalLimit]
      split_ifs <;> simp

lemma checkRedisLimit_live_allowed (limits : Limits) (now : Int)
    (st : RedisState) (w c : Int) (hw : st.window = some w)
    (hc : st.count = some c) (hw0 : w ≠ 0)
    (hlive : now - w < (limits.windowMs : Int))
    (hallow : (checkRedisLimit limits now st).2.allowed = true) :
    (checkRedisLimit limits now st).1.window = some w ∧
    (checkRedisLimit limits now st).1.count = some (c + 1) := by
  have hfresh : ¬(windowFalsy st.window = true ∨
      now - st.window.getD 0 ≥ (limits.windowMs : Int)) := by
    rw [hw]
    simp only [windowFalsy, Option.getD_some]
    rintro (h | h)
    · exact hw0 (by simpa using h)
    · omega
  by_cases h2 : st.count.getD 0 ≥ (limits.maxRPM : Int)
  · exfalso
    unfold checkRedisLimit at hallow
    rw [if_neg hfresh, if_pos h2] at hallow
    simp at hallow
  · by_cases h3 : st.concurrent.getD 0 ≥ (limits.maxConcurrent : Int)
    · exfalso
      unfold checkRedisLimit at hallow
      rw [if_neg hfresh, if_neg h2, if_pos h3] at hallow
      simp at hallow
    · unfold checkRedisLimit
      rw [if_neg hfresh, if_neg h2, if_neg h3]
      simp [hw, hc]

lemma runRedis_live (limits : Limits) (ts : List Int) :
    ∀ (st : RedisState) (w c : Int), st.window = some w → st.count = some c →
    w ≠ 0 →
    (∀ t ∈ ts, t - w < (limits.windowMs : Int)) →
    (∀ r ∈ (runRedis limits ts st).2, r.allowed = true) →
    (runRedis limits ts st).1.window = some w ∧
    (runRedis limits ts st).1.count = some (c + ts.length) := by
  induction ts with
  | nil => intro st w c hw hc _ _ _; simp [runRedis, hw, hc]
  | cons t ts ih =>
      intro st w c hw hc hw0 hin hall
      have ht : t - w < (limits.windowMs : Int) := hin t (by simp)
      have hallow : (checkRedisLimit limits t st).2.allowed = true := by
        apply hall
        simp [runRedis]
      obtain ⟨hwin, hcnt⟩ :=
        checkRedisLimit_live_allowed limits t st w c hw hc hw0 ht hallow
      have hrest : ∀ r ∈ (runRedis limits ts (checkRedisLimit limits t st).1).2,
          r.allowed = true := by
        intro r hr
        apply hall
        simp [runRedis]
        right; exact hr
      have hstep := ih (checkRedisLimit limits t st).1 w (c + 1) hwin hcnt hw0
        (fun s hs => hin s (by simp [hs])) hrest
      refine ⟨by simpa [runRedis] using hstep.1, ?_⟩
      have h2 := hstep.2
      simp [runRedis]
      rw [h2]
      congr 1
      ring

/-- The combined per-provider limiter state: the shared-store keys plus
this instance's in-memory fallback counters. -/
structure RLState where
  redis : RedisState
  loc : LocalState
deriving DecidableEq, Repr

/-- One interleaved operation on the limiter: a `checkLimit` call (taken
on the shared-store path when the store is reachable, on the local
fallback path otherwise) or a `releaseSlot` call (which touches the
shared key only when the store is reachable, and always decrements the
local counter). -/
inductive RLOp where
  | check (redisUp : Bool) (now : Int)
  | release (redisUp : Bool)
deriving DecidableEq, Repr

/-- State effect of one operation. -/
def rlStep (limits : Limits) (st : RLState) : RLOp → RLState
  | .check true now => { st with redis := (checkRedisLimit limits now st.redis).1 }
  | .check false now => { st with loc := (checkLocalLimit limits now st.loc).1 }
  | .release redisUp =>
      { redis :=
          if redisUp then
            { st.redis with concurrent := releaseRedisConcurrent st.redis.concurrent }
          else st.redis,
        loc := { st.loc with concurrent := releaseLocalConcurrent st.loc.concurrent } }

/-- Folding a whole operation sequence over the limiter state. -/
def runOps (limits : Limits) (st : RLState) (ops : List RLOp) : RLState :=
  ops.foldl (rlStep limits) st

lemma rlStep_concurrent_nonneg (limits : Limits) (st : RLState) (op : RLOp)
    (hr : 0 ≤ st.redis.concurrent.getD 0) (hl : 0 ≤ st.loc.concurrent) :
    0 ≤ (rlStep limits st op).redis.concurrent.getD 0 ∧
    0 ≤ (rlStep limits st op).loc.concurrent := by
  cases op with
  | check redisUp now =>
      cases redisUp with
      | true =>
          refine ⟨?_, by simpa [rlStep] using hl⟩
          simp only [rlStep]
          rcases checkRedisLimit_concurrent_cases limits now st.redis with h | h
          · rw [h]; exact hr
          · rw [h]; simp; omega
      | false =>
          refine ⟨by simpa [rlStep] using hr, ?_⟩
          simp only [rlStep]
          rcases checkLocalLimit_concurrent_cases limits now st.loc with h | h
          · rw [h]; exact hl
          · rw [h]; omega
  | release redisUp =>
      constructor
      · cases redisUp
        · simpa [rlStep] using hr
        · have hstep : (rlStep limits st (RLOp.release true)).redis.concurrent
              = releaseRedisConcurrent st.redis.concurrent := by
            simp [rlStep]
          rw [hstep]
          rcases hc : st.redis.concurrent with _ | c
          · simp [releaseRedisConcurrent]
          · rw [hc] at hr
            simp only [releaseRedisConcurrent]
            split_ifs with hpos
            · simp at hr ⊢; omega
            · simp
      · cases redisUp <;>
          (simp only [rlStep, releaseLocalConcurrent]; split_ifs <;> omega)

/-- C9: the concurrency counters (shared and local) never go negative
under any interleaving of `checkLimit` and `releaseSlot`, and
`releaseSlot` on a zero-or-absent counter leaves it at zero. -/
theorem c9_concurrency_never_negative (limits : Limits) (st : RLState)
    (ops : List RLOp)
    (hr : 0 ≤ st.redis.concurrent.getD 0) (hl : 0 ≤ st.loc.concurrent) :
    (0 ≤ (runOps limits st ops).redis.concurrent.getD 0 ∧
     0 ≤ (runOps limits st ops).loc.concurrent) ∧
    releaseRedisConcurrent none = none ∧
    (∀ c : Int, c ≤ 0 → (releaseRedisConcurrent (some c)).getD 0 = 0) ∧
    releaseLocalConcurrent 0 = 0 := by
  refine ⟨?_, rfl, ?_, rfl⟩
  · induction ops generalizing st with
    | nil => exact ⟨hr, hl⟩
    | cons op ops ih =>
        have hstep := rlStep_concurrent_nonneg limits st op hr hl
        simpa [runOps, List.foldl_cons] using
          ih (rlStep limits st op) hstep.1 hstep.2
  · intro c hc
    simp only [releaseRedisConcurrent]
    rw [if_neg (by omega)]
    rfl

/-- Witness for C9 at a concrete state and operation sequence. -/
theorem c9_concurrency_never_negative_witness :
    0 ≤ (runOps ⟨25, 3, 60000⟩
      ⟨⟨some 5, some 2, some 1⟩, ⟨some ⟨1, 5⟩, 0⟩⟩
      [RLOp.release true, RLOp.release true, RLOp.release false,
       RLOp.check true 10, RLOp.release true]).redis.concurrent.getD 0 := by
  have h := c9_concurrency_never_negative ⟨25, 3, 60000⟩
    ⟨⟨some 5, some 2, some 1⟩, ⟨some ⟨1, 5⟩, 0⟩⟩
    [RLOp.release true, RLOp.release true, RLOp.release false,
     RLOp.check true 10, RLOp.release true] (by decide) (by decide)
  exact h.1.1

/-- C1: with the shared store reachable, a window opened at `t0` admits
`maxRPM` calls; a further call inside the window is denied with
`resetMs = windowMs - (now - windowStart)`, and the first call at or
after `t0 + windowMs` is admitted on a fresh window whose count is 1. -/
theorem c1_rpm_window (limits : Limits) (t0 t tExp : Int) (ts : List Int)
    (st0 : RedisState)
    (hw0 : st0.window = none)
    (ht0 : 0 < t0)
    (hlen : ts.length + 1 = limits.maxRPM)
    (hts : ∀ s ∈ ts, s - t0 < (limits.windowMs : Int))
    (hall : ∀ r ∈ (runRedis limits ts (checkRedisLimit limits t0 st0).1).2,
      r.allowed = true)
    (ht : t - t0 < (limits.windowMs : Int))
    (htExp : tExp - t0 ≥ (limits.windowMs : Int)) :
    (checkRedisLimit limits t0 st0).2.allowed = true ∧
    ((checkRedisLimit limits t
        (runRedis limits ts (checkRedisLimit limits t0 st0).1).1).2.allowed
      = false ∧
     (checkRedisLimit limits t
        (runRedis limits ts (checkRedisLimit limits t0 st0).1).1).2.resetMs
      = (limits.windowMs : Int) - (t - t0)) ∧
    ((checkRedisLimit limits tExp
        (runRedis limits ts (checkRedisLimit limits t0 st0).1).1).2.allowed
      = true ∧
     (checkRedisLimit limits tExp
        (runRedis limits ts (checkRedisLimit limits t0 st0).1).1).1.count
      = some 1) := by
  have hfirst := checkRedisLimit_fresh limits t0 st0
    (by rw [hw0]; exact Or.inl rfl)
  have hw1 : (checkRedisLimit limits t0 st0).1.window = some t0 := by
    rw [hfirst]
  have hc1 : (checkRedisLimit limits t0 st0).1.count = some 1 := by
    rw [hfirst]
  have ha1 : (checkRedisLimit limits t0 st0).2.allowed = true := by
    rw [hfirst]
  have hrun := runRedis_live limits ts (checkRedisLimit limits t0 st0).1 t0 1
    hw1 hc1 (by omega) hts hall
  have hcnt : (runRedis limits ts (checkRedisLimit limits t0 st0).1).1.count
      = some (limits.maxRPM : Int) := by
    rw [hrun.2]
    congr 1
    omega
  have hnotfresh : ¬(windowFalsy
      (runRedis limits ts (checkRedisLimit limits t0 st0).1).1.window = true ∨
      t - (runRedis limits ts (checkRedisLimit limits t0 st0).1).1.window.getD 0
        ≥ (limits.windowMs : Int)) := by
    rw [hrun.1]
    simp only [windowFalsy, Option.getD_some]
    rintro (h | h)
    · simp at h; omega
    · omega
  have hdeny := checkRedisLimit_deny_rpm limits t
    (runRedis limits ts (checkRedisLimit limits t0 st0).1).1 hnotfresh
    (by rw [hcnt]; simp)
  have hexp := checkRedisLimit_fresh limits tExp
    (runRedis limits ts (checkRedisLimit limits t0 st0).1).1
    (by rw [hrun.1]; right; simpa using htExp)
  refine ⟨ha1, ?_, ?_⟩
  · rw [hdeny]
    refine ⟨rfl, ?_⟩
    rw [hrun.1]
    rfl
  · rw [hexp]
    exact ⟨rfl, rfl⟩

/-- Witness for C1 with `maxRPM = 3`: three admitted calls, a fourth
denied inside the window, a fifth admitted after expiry. -/
theorem c1_rpm_window_witness :
    (checkRedisLimit ⟨3, 100, 60000⟩ 1000 ⟨none, none, none⟩).2.allowed = true ∧
    ((checkRedisLimit ⟨3, 100, 60000⟩ 31000
        (runRedis ⟨3, 100, 60000⟩ [2000, 3000]
          (checkRedisLimit ⟨3, 100, 60000⟩ 1000 ⟨none, none, none⟩).1).1).2.allowed
      = false ∧
     (checkRedisLimit ⟨3, 100, 60000⟩ 31000
        (runRedis ⟨3, 100, 60000⟩ [2000, 3000]
          (checkRedisLimit ⟨3, 100, 60000⟩ 1000 ⟨none, none, none⟩).1).1).2.resetMs
      = 30000) ∧
    ((checkRedisLimit ⟨3, 100, 60000⟩ 61000
        (runRedis ⟨3, 100, 60000⟩ [2000, 3000]
          (checkRedisLimit ⟨3, 100, 60000⟩ 1000 ⟨none, none, none⟩).1).1).2.allowed
      = true ∧
     (checkRedisLimit ⟨3, 100, 60000⟩ 61000
        (runRedis ⟨3, 100, 60000⟩ [2000, 3000]
          (checkRedisLimit ⟨3, 100, 60000⟩ 1000 ⟨none, none, none⟩).1).1).1.count
      = some 1) := by
  have h := c1_rpm_window ⟨3, 100, 60000⟩ 1000 31000 61000 [2000, 3000]
    ⟨none, none, none⟩ rfl (by decide) (by decide) (by decide)
    (by decide) (by decide) (by decide)
  have hr : (31000 : Int) - 1000 = 1000 + 29000 := by decide
  refine ⟨h.1, ⟨h.2.1.1, ?_⟩, h.2.2⟩
  rw [h.2.1.2]
  decide

/-- C10: an admission through the new-or-expired-window branch, on either
path, neither consults nor increments the concurrency counter, which can
therefore already sit at `maxConcurrent` while the call is admitted. -/
theorem c10_window_reset_skips_concurrency (limits : Limits) (now : Int)
    (stR : RedisState) (stL : LocalState) :
    (windowFalsy stR.window = true ∨
        now - stR.window.getD 0 ≥ (limits.windowMs : Int) →
      (checkRedisLimit limits now stR).2.allowed = true ∧
      (checkRedisLimit limits now stR).1.concurrent = stR.concurrent) ∧
    ((stL.window = none ∨
        ∀ w, stL.window = some w → now - w.windowStart ≥ (limits.windowMs : Int)) →
      (checkLocalLimit limits now stL).2.allowed = true ∧
      (checkLocalLimit limits now stL).1.concurrent = stL.concurrent) ∧
    ((checkRedisLimit ⟨5, 1, 60000⟩ 70000 ⟨some 1, some 5, some 1⟩).2.allowed
        = true ∧
     (checkRedisLimit ⟨5, 1, 60000⟩ 70000 ⟨some 1, some 5, some 1⟩).1.concurrent
        = some 1 ∧
     ((1 : Int) ≥ ((⟨5, 1, 60000⟩ : Limits).maxConcurrent : Int))) := by
  refine ⟨?_, ?_, by decide⟩
  · intro h
    unfold checkRedisLimit
    rw [if_pos h]
    exact ⟨rfl, rfl⟩
  · intro h
    obtain ⟨win, conc⟩ := stL
    cases win with
    | none => exact ⟨rfl, rfl⟩
    | some w =>
        rcases h with h | h
        · cases h
        · simp only [checkLocalLimit]
          rw [if_pos (h w rfl)]
          exact ⟨rfl, rfl⟩

/-- Witness for C10: a fresh-window admission with the concurrency key
already at the concurrency limit leaves the key untouched. -/
theorem c10_window_reset_skips_concurrency_witness :
    (checkRedisLimit ⟨5, 1, 60000⟩ 70000 ⟨some 1, some 5, some 1⟩).2.allowed
      = true ∧
    (checkRedisLimit ⟨5, 1, 60000⟩ 70000 ⟨some 1, some 5, some 1⟩).1.concurrent
      = some 1 := by
  have h := c10_window_reset_skips_concurrency ⟨5, 1, 60000⟩ 70000
    ⟨some 1, some 5, some 1⟩ ⟨none, 0⟩
  have h1 := h.1 (by right; decide)
  exact ⟨h1.1, h1.2⟩

end RateLimiter

namespace Cache

/-- JavaScript `\w` (ASCII word character). -/
def isWordChar (c : Char) : Bool := c.isAlphanum || c == '_'

/-- Replace every maximal whitespace run by a single space
(`.replace(/\s+/g, ' ')`). -/
def collapseWs : List Char → List Char
  | [] => []
  | c :: rest =>
      if c.isWhitespace then
        match collapseWs rest with
        | [] => [' ']
        | d :: ds => if d == ' ' then d :: ds else ' ' :: d :: ds
      else c :: collapseWs rest

/-- Strip leading and trailing whitespace (`.trim()`). -/
def trimChars (l : List Char) : List Char :=
  ((l.dropWhile Char.isWhitespace).reverse.dropWhile Char.isWhitespace).reverse

/-- JavaScript `String.split(' ')` on a character list. -/
def splitOnSpace : List Char → List (List Char)
  | [] => [[]]
  | c :: rest =>
      match splitOnSpace rest with
      | [] => [[]]
      | w :: ws => if c == ' ' then [] :: w :: ws else (c :: w) :: ws

/-- The character-level normalization pipeline of `normalizePrompt`:
lowercase, replace `[^\w\s]` by spaces, collapse whitespace, trim,
truncate to 200 characters. -/
def normalizeChars (text : String) : List Char :=
  (trimChars (collapseWs
    ((text.toList.map Char.toLower).map
      (fun c => if isWordChar c || c.isWhitespace then c else ' ')))).take 200

/-- Shallow embedding of `normalizePrompt`. -/
def normalizePrompt (text : String) : String :=
  String.mk (normalizeChars text)

/-- The stop-word list of `tokenize`. -/
def stopWords : List String :=
  ["a", "an", "the", "is", "are", "was", "were", "be", "been",
   "being", "have", "has", "had", "do", "does", "did", "will",
   "would", "could", "should", "may", "might", "must", "shall",
   "can", "dengan", "dan", "yang", "untuk", "di", "ke", "dari",
   "saya", "mau", "buatkan", "tolong", "buat", "bikin"]

/-- Shallow embedding of `tokenize`: split the normalized prompt on
spaces and keep words longer than 2 characters that are not stop words,
as a set. -/
def tokenize (text : String) : Finset String :=
  (((splitOnSpace (normalizeChars text)).map String.mk).filter
    (fun word => word.length > 2 && !stopWords.contains word)).toFinset

/-- Shallow embedding of `jaccardSimilarity`. -/
def jaccardSimilarity (setA setB : Finset String) : ℚ :=
  if setA.card = 0 ∨ setB.card = 0 then 0
  else ((setA ∩ setB).card : ℚ) / ((setA ∪ setB).card : ℚ)

/-- One row of the `job_queue` query result. -/
structure JobRecord where
  id : String
  inputMessage : Option String
  outputContent : Option String
  files : Option (List (String × String))
  completedAt : Int
  status : String
deriving DecidableEq, Repr

/-- The `CachedResponse` record returned on a hit. -/
structure CachedResponse where
  jobId : String
  outputContent : String
  files : Option (List (String × String))
  completedAt : Int
  similarity : ℚ
deriving DecidableEq, Repr

/-- The age cutoff: `now` minus `maxAgeHours` hours in milliseconds. -/
def cutoffOf (now maxAgeHours : Int) : Int := now - maxAgeHours * 3600000

/-- The database-side filters of the `job_queue` query applied to the
candidate-record set: completed status, completion time at or after the
cutoff, non-null output. -/
def queryJobs (records : List JobRecord) (now maxAgeHours : Int) :
    List JobRecord :=
  records.filter (fun j => j.status == "completed"
    && decide (cutoffOf now maxAgeHours ≤ j.completedAt)
    && j.outputContent.isSome)

/-- The similarity the scan loop attributes to a candidate (`0` for a
candidate without request text, which the loop skips). -/
def simOf (prompt : String) (j : JobRecord) : ℚ :=
  match j.inputMessage with
  | some m => jaccardSimilarity (tokenize prompt) (tokenize m)
  | none => 0

/-- The `CachedResponse` built from a matching job row. -/
def mkCached (prompt : String) (j : JobRecord) : CachedResponse :=
  ⟨j.id, j.outputContent.getD "", j.files, j.completedAt, simOf prompt j⟩

/-- The best-match scan of `findCachedResponse`: keep the running best
score and best match, updating when a candidate scores at least the
threshold and strictly above the running best (candidates with missing
or empty request text are skipped, mirroring `if (!job.input_message)`). -/
def bestLoop (prompt : String) (threshold : ℚ) :
    List JobRecord → ℚ → Option CachedResponse → ℚ × Option CachedResponse
  | [], best, bm => (best, bm)
  | j :: rest, best, bm =>
      match j.inputMessage with
      | none => bestLoop prompt threshold rest best bm
      | some m =>
          if m = "" then bestLoop prompt threshold rest best bm
          else if threshold ≤ simOf prompt j ∧ best < simOf prompt j then
            bestLoop prompt threshold rest (simOf prompt j)
              (some (mkCached prompt j))
          else bestLoop prompt threshold rest best bm

/-- Shallow embedding of `findCachedResponse`, with the queried
candidate-record set passed explicitly. -/
def findCachedResponse (prompt : String) (records : List JobRecord)
    (now maxAgeHours : Int) (threshold : ℚ) : Option CachedResponse :=
  (bestLoop prompt threshold (queryJobs records now maxAgeHours) 0 none).2

lemma simOf_empty_message (prompt : String) (j : JobRecord)
    (h : j.inputMessage = some "") : simOf prompt j = 0 := by
  have htok : tokenize "" = ∅ := by decide
  simp [simOf, h, htok, jaccardSimilarity]

lemma bestLoop_provenance (prompt : String) (threshold : ℚ)
    (l : List JobRecord) :
    ∀ (best : ℚ) (bm : Option CachedResponse) (c : CachedResponse),
    (bestLoop prompt threshold l best bm).2 = some c →
    bm = some c ∨ ∃ j ∈ l, ∃ m, j.inputMessage = some m ∧
      c = mkCached prompt j ∧ threshold ≤ simOf prompt j := by
  induction l with
  | nil => intro best bm c h; left; simpa [bestLoop] using h
  | cons j rest ih =>
      intro best bm c h
      simp only [bestLoop] at h
      rcases hm : j.inputMessage with _ | m
      · simp only [hm] at h
        rcases ih best bm c h with h1 | ⟨j1, hj1, hrest⟩
        · exact Or.inl h1
        · exact Or.inr ⟨j1, List.mem_cons_of_mem _ hj1, hrest⟩
      · simp only [hm] at h
        by_cases hme : m = ""
        · rw [if_pos hme] at h
          rcases ih best bm c h with h1 | ⟨j1, hj1, hrest⟩
          · exact Or.inl h1
          · exact Or.inr ⟨j1, List.mem_cons_of_mem _ hj1, hrest⟩
        · rw [if_neg hme] at h
          by_cases hcond : threshold ≤ simOf prompt j ∧ best < simOf prompt j
          · rw [if_pos hcond] at h
            rcases ih _ _ c h with h1 | ⟨j1, hj1, hrest⟩
            · right
              exact ⟨j, List.mem_cons_self _ _, m, hm,
                by injection h1 with h1; exact h1.symm, hcond.1⟩
            · exact Or.inr ⟨j1, List.mem_cons_of_mem _ hj1, hrest⟩
          · rw [if_neg hcond] at h
            rcases ih best bm c h with h1 | ⟨j1, hj1, hrest⟩
            · exact Or.inl h1
            · exact Or.inr ⟨j1, List.mem_cons_of_mem _ hj1, hrest⟩

lemma bestLoop_sim (prompt : String) (threshold : ℚ) (l : List JobRecord) :
    ∀ (best : ℚ) (bm : Option CachedResponse),
    (∀ c, bm = some c → c.similarity = best) →
    ∀ c, (bestLoop prompt threshold l best bm).2 = some c →
    c.similarity = (bestLoop prompt threshold l best bm).1 := by
  induction l with
  | nil =>
      intro best bm hbm c h
      simp only [bestLoop] at h ⊢
      exact hbm c h
  | cons j rest ih =>
      intro best bm hbm c h
      simp only [bestLoop] at h ⊢
      rcases hm : j.inputMessage with _ | m
      · simp only [hm] at h ⊢; exact ih best bm hbm c h
      · simp only [hm] at h ⊢
        by_cases hme : m = ""
        · rw [if_pos hme] at h ⊢; exact ih best bm hbm c h
        · rw [if_neg hme] at h ⊢
          by_cases hcond : threshold ≤ simOf prompt j ∧ best < simOf prompt j
          · rw [if_pos hcond] at h ⊢
            refine ih _ _ ?_ c h
            rintro c' hc'
            injection hc' with hc'
            rw [← hc']
            rfl
          · rw [if_neg hcond] at h ⊢; exact ih best bm hbm c h

lemma bestLoop_max (prompt : String) (threshold : ℚ) (l : List JobRecord) :
    ∀ (best : ℚ) (bm : Option CachedResponse), 0 ≤ best →
    best ≤ (bestLoop prompt threshold l best bm).1 ∧
    ∀ j ∈ l, threshold ≤ simOf prompt j →
      simOf prompt j ≤ (bestLoop prompt threshold l best bm).1 := by
  induction l with
  | nil => intro best bm _; simp [bestLoop]
  | cons j rest ih =>
      intro best bm h0
      simp only [bestLoop]
      rcases hm : j.inputMessage with _ | m
      · simp only [hm]
        obtain ⟨h1, h2⟩ := ih best bm h0
        refine ⟨h1, ?_⟩
        intro j1 hj1 hth
        rcases List.mem_cons.mp hj1 with rfl | hj1
        · have : simOf prompt j1 = 0 := by simp [simOf, hm]
          rw [this]; exact le_trans h0 h1
        · exact h2 j1 hj1 hth
      · simp only [hm]
        by_cases hme : m = ""
        · rw [if_pos hme]
          obtain ⟨h1, h2⟩ := ih best bm h0
          refine ⟨h1, ?_⟩
          intro j1 hj1 hth
          rcases List.mem_cons.mp hj1 with rfl | hj1
          · rw [simOf_empty_message prompt j1 (hme ▸ hm)]
            exact le_trans h0 h1
          · exact h2 j1 hj1 hth
        · rw [if_neg hme]
          by_cases hcond : threshold ≤ simOf prompt j ∧ best < simOf prompt j
          · rw [if_pos hcond]
            obtain ⟨h1, h2⟩ := ih (simOf prompt j) (some (mkCached prompt j))
              (le_trans h0 (le_of_lt hcond.2))
            refine ⟨le_trans (le_of_lt hcond.2) h1, ?_⟩
            intro j1 hj1 hth
            rcases List.mem_cons.mp hj1 with rfl | hj1
            · exact h1
            · exact h2 j1 hj1 hth
          · rw [if_neg hcond]
            obtain ⟨h1, h2⟩ := ih best bm h0
            refine ⟨h1, ?_⟩
            intro j1 hj1 hth
            rcases List.mem_cons.mp hj1 with rfl | hj1
            · push_neg at hcond
              exact le_trans (hcond hth) h1
            · exact h2 j1 hj1 hth

lemma bestLoop_isSome (prompt : String) (threshold : ℚ) (l : List JobRecord) :
    ∀ (best : ℚ) (bm : Option CachedResponse), bm.isSome →
    (bestLoop prompt threshold l best bm).2.isSome := by
  induction l with
  | nil => intro best bm h; simpa [bestLoop] using h
  | cons j rest ih =>
      intro best bm h
      simp only [bestLoop]
      rcases hm : j.inputMessage with _ | m
      · simp only [hm]; exact ih best bm h
      · simp only [hm]
        by_cases hme : m = ""
        · rw [if_pos hme]; exact ih best bm h
        · rw [if_neg hme]
          by_cases hcond : threshold ≤ simOf prompt j ∧ best < simOf prompt j
          · rw [if_pos hcond]; exact ih _ _ rfl
          · rw [if_neg hcond]; exact ih best bm h

lemma bestLoop_hit (prompt : String) (threshold : ℚ) (l : List JobRecord)
    (hth : 0 < threshold) :
    ∀ (best : ℚ) (bm : Option CachedResponse),
    (bm = none → best = 0) →
    ((∃ j ∈ l, threshold ≤ simOf prompt j) ∨ bm.isSome) →
    (bestLoop prompt threshold l best bm).2.isSome := by
  induction l with
  | nil =>
      intro best bm _ h
      rcases h with ⟨j, hj, _⟩ | h
      · cases hj
      · simpa [bestLoop] using h
  | cons j rest ih =>
      intro best bm hbm h
      simp only [bestLoop]
      rcases hm : j.inputMessage with _ | m
      · simp only [hm]
        refine ih best bm hbm ?_
        rcases h with ⟨j1, hj1, hth1⟩ | h
        · rcases List.mem_cons.mp hj1 with rfl | hj1
          · exfalso
            have : simOf prompt j1 = 0 := by simp [simOf, hm]
            rw [this] at hth1; exact absurd (lt_of_lt_of_le hth hth1) (by simp)
          · exact Or.inl ⟨j1, hj1, hth1⟩
        · exact Or.inr h
      · simp only [hm]
        by_cases hme : m = ""
        · rw [if_pos hme]
          refine ih best bm hbm ?_
          rcases h with ⟨j1, hj1, hth1⟩ | h
          · rcases List.mem_cons.mp hj1 with rfl | hj1
            · exfalso
              rw [simOf_empty_message prompt j1 (hme ▸ hm)] at hth1
              exact absurd (lt_of_lt_of_le hth hth1) (by simp)
            · exact Or.inl ⟨j1, hj1, hth1⟩
          · exact Or.inr h
        · rw [if_neg hme]
          by_cases hcond : threshold ≤ simOf prompt j ∧ best < simOf prompt j
          · rw [if_pos hcond]
            exact bestLoop_isSome prompt threshold rest _ _ rfl
          · rw [if_neg hcond]
            refine ih best bm hbm ?_
            rcases h with ⟨j1, hj1, hth1⟩ | h
            · rcases List.mem_cons.mp hj1 with rfl | hj1
              · rcases bm with _ | c
                · exfalso
                  push_neg at hcond
                  have := hcond hth1
                  rw [hbm rfl] at this
                  exact absurd (lt_of_lt_of_le (lt_of_lt_of_le hth hth1) this)
                    (by simp)
                · exact Or.inr rfl
              · exact Or.inl ⟨j1, hj1, hth1⟩
            · exact Or.inr h

lemma mem_queryJobs (records : List JobRecord) (now maxAgeHours : Int)
    (j : JobRecord) (hj : j ∈ queryJobs records now maxAgeHours) :
    j ∈ records ∧ j.status = "completed" ∧
    cutoffOf now maxAgeHours ≤ j.completedAt ∧ j.outputContent.isSome := by
  unfold queryJobs at hj
  rw [List.mem_filter] at hj
  refine ⟨hj.1, ?_⟩
  have := hj.2
  simp only [Bool.and_eq_true, beq_iff_eq, decide_eq_true_eq] at this
  exact ⟨this.1.1, this.1.2, this.2⟩

/-- C7 (amended: positive thresholds): `findCachedResponse` never
returns a record from outside the age window; a returned record comes
from the queried candidate set, scores at least the threshold, and no
candidate's similarity exceeds it; when no candidate reaches the
threshold the result is `null`; and when some candidate reaches the
threshold a record is returned. -/
theorem c7_age_and_similarity (prompt : String) (records : List JobRecord)
    (now maxAgeHours : Int) (threshold : ℚ) (hth : 0 < threshold) :
    (∀ c, findCachedResponse prompt records now maxAgeHours threshold = some c →
      (∃ j ∈ queryJobs records now maxAgeHours,
        j ∈ records ∧ c.jobId = j.id ∧ c.completedAt = j.completedAt ∧
        c.similarity = simOf prompt j) ∧
      cutoffOf now maxAgeHours ≤ c.completedAt ∧
      threshold ≤ c.similarity ∧
      (∀ j ∈ queryJobs records now maxAgeHours,
        simOf prompt j ≤ c.similarity)) ∧
    ((∀ j ∈ queryJobs records now maxAgeHours, simOf prompt j < threshold) →
      findCachedResponse prompt records now maxAgeHours threshold = none) ∧
    ((∃ j ∈ queryJobs records now maxAgeHours, threshold ≤ simOf prompt j) →
      (findCachedResponse prompt records now maxAgeHours threshold).isSome) := by
  refine ⟨?_, ?_, ?_⟩
  · intro c hc
    unfold findCachedResponse at hc
    rcases bestLoop_provenance prompt threshold
        (queryJobs records now maxAgeHours) 0 none c hc with h | ⟨j, hj, m, hm, hcj, hsim⟩
    · cases h
    · have hfields : c.jobId = j.id ∧ c.completedAt = j.completedAt ∧
          c.similarity = simOf prompt j := by
        rw [hcj]; exact ⟨rfl, rfl, rfl⟩
      have hmem := mem_queryJobs records now maxAgeHours j hj
      refine ⟨⟨j, hj, hmem.1, hfields⟩, ?_, ?_, ?_⟩
      · rw [hfields.2.1]; exact hmem.2.2.1
      · rw [hfields.2.2]; exact hsim
      · intro j1 hj1
        have hbest := bestLoop_sim prompt threshold
          (queryJobs records now maxAgeHours) 0 none (by intro c' h'; cases h')
          c hc
        have hmax := bestLoop_max prompt threshold
          (queryJobs records now maxAgeHours) 0 none le_rfl
        by_cases hth1 : threshold ≤ simOf prompt j1
        · rw [hbest]
          exact hmax.2 j1 hj1 hth1
        · push_neg at hth1
          rw [hfields.2.2]
          exact le_trans (le_of_lt hth1) hsim
  · intro hall
    rcases hres : findCachedResponse prompt records now maxAgeHours threshold
        with _ | c
    · rfl
    · exfalso
      unfold findCachedResponse at hres
      rcases bestLoop_provenance prompt threshold
          (queryJobs records now maxAgeHours) 0 none c hres with h | ⟨j, hj, m, hm, hcj, hsim⟩
      · cases h
      · exact absurd hsim (not_le.mpr (hall j hj))
  · intro hex
    unfold findCachedResponse
    exact bestLoop_hit prompt threshold (queryJobs records now maxAgeHours)
      hth 0 none (fun _ => rfl) (Or.inl hex)

lemma simOf_disjoint_example :
    simOf "build a todo application" ⟨"j1", some "alpha delta epsilon",
      some "out", none, 1000, "completed"⟩ = 0 := by
  show jaccardSimilarity (tokenize "build a todo application")
    (tokenize "alpha delta epsilon") = 0
  unfold jaccardSimilarity
  rw [if_neg (by decide)]
  rw [show (tokenize "build a todo application" ∩
    tokenize "alpha delta epsilon").card = 0 from by decide]
  simp

/-- Witness for C7 at a concrete prompt, candidate set, and threshold
`7/10`: an in-window but dissimilar candidate yields `null`. -/
theorem c7_age_and_similarity_witness :
    findCachedResponse "build a todo application" [⟨"j1",
      some "alpha delta epsilon", some "out", none, 1000, "completed"⟩]
      1000 72 (7/10) = none := by
  have h := c7_age_and_similarity "build a todo application" [⟨"j1",
      some "alpha delta epsilon", some "out", none, 1000, "completed"⟩]
      1000 72 (7/10) (by norm_num)
  apply h.2.1
  intro j hj
  have hq : queryJobs [(⟨"j1", some "alpha delta epsilon", some "out", none,
      1000, "completed"⟩ : JobRecord)] 1000 72
      = [⟨"j1", some "alpha delta epsilon", some "out", none, 1000,
        "completed"⟩] := by decide
  rw [hq] at hj
  rcases List.mem_singleton.mp hj with rfl
  rw [simOf_disjoint_example]
  norm_num

lemma simOf_counterexample_zero :
    simOf "alpha beta gamma" ⟨"j1", some "delta epsilon zeta", some "out",
      none, 1000, "completed"⟩ = 0 := by
  show jaccardSimilarity (tokenize "alpha beta gamma")
    (tokenize "delta epsilon zeta") = 0
  unfold jaccardSimilarity
  rw [if_neg (by decide)]
  rw [show (tokenize "alpha beta gamma" ∩
    tokenize "delta epsilon zeta").card = 0 from by decide]
  simp

/-- C7 counterexample: with threshold `0`, an in-window candidate whose
similarity equals the threshold is not returned — the scan requires a
score strictly above the initial best of `0`, so `findCachedResponse`
returns `null` although a candidate reaches the threshold. -/
theorem c7_claim_counterexample :
    findCachedResponse "alpha beta gamma" [⟨"j1",
      some "delta epsilon zeta", some "out", none, 1000, "completed"⟩]
      1000 72 0 = none ∧
    queryJobs [⟨"j1", some "delta epsilon zeta", some "out", none, 1000,
      "completed"⟩] 1000 72 = [⟨"j1", some "delta epsilon zeta", some "out",
      none, 1000, "completed"⟩] ∧
    simOf "alpha beta gamma" ⟨"j1", some "delta epsilon zeta", some "out",
      none, 1000, "completed"⟩ = 0 ∧
    ((0 : ℚ) ≤ 0) := by
  have hq : queryJobs [(⟨"j1", some "delta epsilon zeta", some "out", none,
      1000, "completed"⟩ : JobRecord)] 1000 72
      = [⟨"j1", some "delta epsilon zeta", some "out", none, 1000,
        "completed"⟩] := by decide
  refine ⟨?_, hq, simOf_counterexample_zero, le_rfl⟩
  unfold findCachedResponse
  rw [hq]
  simp only [bestLoop]
  rw [if_neg (by decide : ¬("delta epsilon zeta" = ""))]
  rw [if_neg ?hcond]
  case hcond =>
    rw [simOf_counterexample_zero]
    rintro ⟨h1, h2⟩
    exact absurd h2 (lt_irrefl 0)

/-- C8: `jaccardSimilarity` is `|A∩B| / |A∪B|` on non-empty sets and `0`
when either set is empty; it is symmetric, `0` on disjoint sets, and `1`
on identical non-empty sets. -/
theorem c8_jaccard_properties (setA setB : Finset String) :
    (setA ≠ ∅ → setB ≠ ∅ → jaccardSimilarity setA setB
      = ((setA ∩ setB).card : ℚ) / ((setA ∪ setB).card : ℚ)) ∧
    (setA = ∅ ∨ setB = ∅ → jaccardSimilarity setA setB = 0) ∧
    jaccardSimilarity setA setB = jaccardSimilarity setB setA ∧
    (Disjoint setA setB → jaccardSimilarity setA setB = 0) ∧
    (setA ≠ ∅ → jaccardSimilarity setA setA = 1) := by
  refine ⟨?_, ?_, ?_, ?_, ?_⟩
  · intro hA hB
    unfold jaccardSimilarity
    rw [if_neg]
    rintro (h | h)
    · exact hA (Finset.card_eq_zero.mp h)
    · exact hB (Finset.card_eq_zero.mp h)
  · intro h
    unfold jaccardSimilarity
    rw [if_pos]
    rcases h with h | h
    · exact Or.inl (by rw [h]; rfl)
    · exact Or.inr (by rw [h]; rfl)
  · unfold jaccardSimilarity
    by_cases h : setA.card = 0 ∨ setB.card = 0
    · rw [if_pos h, if_pos h.symm]
    · rw [if_neg h, if_neg (fun hc => h hc.symm),
        Finset.inter_comm, Finset.union_comm]
  · intro hdis
    unfold jaccardSimilarity
    by_cases h : setA.card = 0 ∨ setB.card = 0
    · rw [if_pos h]
    · rw [if_neg h]
      have : (setA ∩ setB).card = 0 := by
        rw [Finset.card_eq_zero]
        exact Finset.disjoint_iff_inter_eq_empty.mp hdis
      rw [this]
      simp
  · intro hA
    unfold jaccardSimilarity
    rw [if_neg (by rintro (h | h) <;> exact hA (Finset.card_eq_zero.mp h))]
    rw [Finset.inter_self, Finset.union_self]
    rw [div_self]
    simp only [ne_eq, Nat.cast_eq_zero, Finset.card_eq_zero]
    exact hA

/-- Witness for C8 on concrete token sets. -/
theorem c8_jaccard_properties_witness :
    jaccardSimilarity (tokenize "build todo app") (tokenize "build todo app")
      = 1 := by
  have h := c8_jaccard_properties (tokenize "build todo app")
    (tokenize "build todo app")
  exact h.2.2.2.2 (by decide)

end Cache

namespace Orchestrator

/-- One decomposed sub-task (`SubTask`). -/
structure SubTask where
  id : String
  agent : String
  description : String
  dependencies : List String
  priority : String
deriving DecidableEq, Repr

/-- A decomposition plan (`TaskPlan`). -/
structure TaskPlan where
  projectName : String
  summary : String
  subTasks : List SubTask
  parallelGroups : List (List String)
deriving DecidableEq, Repr

/-- One task execution record (`AgentResult`); `files` is an
insertion-ordered record of path/content pairs, `none` when the field is
absent. -/
structure AgentResult where
  taskId : String
  agent : String
  success : Bool
  output : String
  files : Option (List (String × String))
  duration : Int
deriving DecidableEq, Repr

/-- The observable outcome of one `executeAgent` promise:
a resolved success result, a resolved failure result from
`executeAgent`'s own catch (no `files` field), a rejection that
`executeParallel`'s catch turns into a failed result, or hitting the
fixed 60-second timeout. -/
inductive ExecOutcome where
  | done (output : String) (files : List (String × String)) (duration : Int)
  | thrown (msg : String) (duration : Int)
  | reject (msg : String)
  | timeout
deriving DecidableEq, Repr

/-- The provider-behaviour oracle: outcome of executing one task given
the results accumulated from earlier groups. -/
def Behavior : Type := SubTask → List AgentResult → ExecOutcome

/-- The `AgentResult` that `executeParallel`'s per-task
`Promise.race`/catch wrapper produces for one task. -/
def runTask (behavior : Behavior) (prev : List AgentResult)
    (task : SubTask) : AgentResult :=
  match behavior task prev with
  | .done out fs d => ⟨task.id, task.agent, true, out, some fs, d⟩
  | .thrown msg d => ⟨task.id, task.agent, false, msg, none, d⟩
  | .reject msg => ⟨task.id, task.agent, false, "Error: " ++ msg, some [], 60000⟩
  | .timeout => ⟨task.id, task.agent, false,
      "Error: Agent " ++ task.agent ++ " timeout after 60s", some [], 60000⟩

/-- `plan.subTasks.filter(t => group.includes(t.id))`. -/
def groupTasks (plan : TaskPlan) (group : List String) : List SubTask :=
  plan.subTasks.filter (fun t => group.contains t.id)

/-- Shallow embedding of `executeParallel`: groups run in order, each
group's tasks map to results via `runTask` against the snapshot of
results from fully completed earlier groups. -/
def executeParallel (behavior : Behavior) (plan : TaskPlan) :
    List AgentResult :=
  plan.parallelGroups.foldl
    (fun allResults group =>
      allResults ++ (groupTasks plan group).map (runTask behavior allResults))
    []

/-- The tasks `executeParallel` runs, in execution order. -/
def executedTasks (plan : TaskPlan) : List SubTask :=
  plan.parallelGroups.foldl (fun acc group => acc ++ groupTasks plan group) []

/-- Index of the group containing an id (`parallelGroups.length` when
absent). -/
def groupIdx (plan : TaskPlan) (id : String) : Nat :=
  plan.parallelGroups.findIdx (fun g => g.contains id)

/-- The §3 plan invariant: task ids are distinct, every id in
`parallelGroups` names a task, each task sits in exactly one group, and
each dependency sits in a strictly earlier group. -/
def planInvariantB (plan : TaskPlan) : Bool :=
  decide ((plan.subTasks.map (fun t => t.id)).Nodup)
  && plan.parallelGroups.all
      (fun g => g.all (fun id => plan.subTasks.any (fun t => t.id == id)))
  && plan.subTasks.all
      (fun t => plan.parallelGroups.countP (fun g => g.contains t.id) == 1)
  && plan.subTasks.all
      (fun t => t.dependencies.all
        (fun d => decide (groupIdx plan d < groupIdx plan t.id)))

/-- Substring test on character lists (JavaScript `String.includes`). -/
def startsWithRem : List Char → List Char → Option (List Char)
  | l, [] => some l
  | [], _ :: _ => none
  | h :: hs, n :: ns => if h == n then startsWithRem hs ns else none

/-- Whether `needle` occurs inside `hay`. -/
def containsSub : List Char → List Char → Bool
  | [], needle => needle.isEmpty
  | h :: hs, needle => (startsWithRem (h :: hs) needle).isSome || containsSub hs needle

/-- `hay.includes(needle)` on strings. -/
def strIncludes (hay needle : String) : Bool :=
  containsSub hay.toList needle.toList

/-- ASCII lowercase of a string. -/
def toLowerStr (s : String) : String := String.mk (s.toList.map Char.toLower)

/-- ASCII uppercase of a string. -/
def toUpperStr (s : String) : String := String.mk (s.toList.map Char.toUpper)

/-- The merger's deny-list of path fragments. -/
def forbiddenPaths : List String :=
  ["prisma/", "server/", "api/", ".env", "docker", "/migrations/",
   "schema.prisma"]

/-- A path hits the deny-list when its lowercase form includes any
forbidden fragment. -/
def isForbidden (filename : String) : Bool :=
  forbiddenPaths.any (fun fp => strIncludes (toLowerStr filename) fp)

/-- Lookup in an insertion-ordered record. -/
def getKey : List (String × String) → String → Option String
  | [], _ => none
  | (k, v) :: rest, key => if k == key then some v else getKey rest key

/-- JavaScript object update: overwrite in place, append when new. -/
def setKey : List (String × String) → String → String → List (String × String)
  | [], key, v => [(key, v)]
  | (k, v0) :: rest, key, v =>
      if k == key then (k, v) :: rest else (k, v0) :: setKey rest key v

/-- Append a result to a path's conflict entry, creating the entry when
absent (mirrors `conflicts.find(...)` / `conflicts.push(...)`). -/
def addConflict (conflicts : List (String × List AgentResult))
    (filename : String) (r : AgentResult) :
    List (String × List AgentResult) :=
  match conflicts with
  | [] => [(filename, [r])]
  | (f, srcs) :: rest =>
      if f == filename then (f, srcs ++ [r]) :: rest
      else (f, srcs) :: addConflict rest filename r

/-- Lookup in the conflict list. -/
def getConf : List (String × List AgentResult) → String →
    Option (List AgentResult)
  | [], _ => none
  | (f, srcs) :: rest, p => if f == p then some srcs else getConf rest p

/-- The merger's running state: the unioned files and the recorded
conflicts. -/
structure MergeAcc where
  allFiles : List (String × String)
  conflicts : List (String × List AgentResult)
deriving DecidableEq, Repr

/-- Merging one path/content pair of one result: skip deny-listed paths,
record a conflict when a truthy existing content differs
(`allFiles[filename] && allFiles[filename] !== content` — an absent
entry and an empty string are both falsy, so `getD ""` captures the
JavaScript test exactly), then last-write-wins. -/
def mergeFile (r : AgentResult) (acc : MergeAcc) (fc : String × String) :
    MergeAcc :=
  if isForbidden fc.1 then acc
  else
    { allFiles := setKey acc.allFiles fc.1 fc.2,
      conflicts :=
        if (getKey acc.allFiles fc.1).getD "" ≠ "" ∧
            (getKey acc.allFiles fc.1).getD "" ≠ fc.2 then
          addConflict acc.conflicts fc.1 r
        else acc.conflicts }

/-- Merging one result's files. -/
def mergeResult (acc : MergeAcc) (r : AgentResult) : MergeAcc :=
  match r.files with
  | none => acc
  | some fs => fs.foldl (mergeFile r) acc

/-- The union-with-conflict-tracking loop of `merge`. -/
def mergeCore (results : List AgentResult) : MergeAcc :=
  results.foldl mergeResult ⟨[], []⟩

/-- The `output.md` fallback body built from successful results. -/
def combinedOutput (results : List AgentResult) : String :=
  String.intercalate "\n\n---\n\n"
    ((results.filter (fun r => r.success)).map
      (fun r => "## " ++ toUpperStr r.agent ++ "\n\n" ++ r.output))

/-- Outcome of a full `merge` call; `specialistCalls` counts issued
conflict-resolution provider calls. -/
structure MergeOutcome where
  files : List (String × String)
  conflicts : List (String × List AgentResult)
  specialistCalls : Nat
deriving DecidableEq, Repr

/-- Shallow embedding of `merge`.  The specialist provider call is the
`resolver` oracle: `some m` is a reply that parsed to a resolved file
map (applied by `Object.assign`), `none` a failed call or unparseable
reply.  The resolution block is guarded by
`conflicts.length > 0 && this.enableLogging`, exactly as in the source. -/
def merge (enableLogging : Bool)
    (resolver : Option (List (String × String)))
    (results : List AgentResult) : MergeOutcome :=
  let acc := mergeCore results
  let withRes :=
    if 0 < acc.conflicts.length ∧ enableLogging = true then
      match resolver with
      | some resolved =>
          (resolved.foldl (fun fs kv => setKey fs kv.1 kv.2) acc.allFiles, 1)
      | none => (acc.allFiles, 1)
    else (acc.allFiles, 0)
  ⟨if withRes.1.isEmpty then [("output.md", combinedOutput results)]
    else withRes.1,
   acc.conflicts, withRes.2⟩

/-- The content a result contributes at a path (`none` when it has no
`files` record or the record lacks the path). -/
def producedAt (r : AgentResult) (p : String) : Option String :=
  match r.files with
  | none => none
  | some fs => getKey fs p

/-- All contents contributed at a path, in merge order. -/
def contentsAt (results : List AgentResult) (p : String) : List String :=
  results.filterMap (fun r => producedAt r p)

/-- The results contributing at a path, in merge order. -/
def producersAt (results : List AgentResult) (p : String) :
    List AgentResult :=
  results.filter (fun r => (producedAt r p).isSome)

/-- The agent kinds `verifyChain` reviews. -/
def codingAgents : List String := ["frontend", "backend", "database", "design"]

/-- The reviewer oracle for one result: `some (output, files)` is the
final reviewed output and extracted file set (after the optional
self-heal loop), `none` a reviewer call that threw (keep the original
result). -/
def VerifyOracle : Type :=
  AgentResult → Option (String × List (String × String))

/-- Verification of one result: keep it when its task is unknown or the
reviewer call fails, otherwise replace output and files and tag the
agent `+verified` (success flag is never changed). -/
def verifyOne (vo : VerifyOracle) (plan : TaskPlan) (r : AgentResult) :
    AgentResult :=
  match plan.subTasks.find? (fun t => t.id == r.taskId) with
  | none => r
  | some _ =>
      match vo r with
      | none => r
      | some (out, fs) =>
          ⟨r.taskId, r.agent ++ "+verified", r.success, out, some fs,
            r.duration⟩

/-- Shallow embedding of `doVerifyChain`: non-coding results pass
through first, coding results are reviewed. -/
def doVerifyChain (vo : VerifyOracle) (plan : TaskPlan)
    (results : List AgentResult) : List AgentResult :=
  (results.filter (fun r => !(codingAgents.contains r.agent))) ++
    (results.filter (fun r => codingAgents.contains r.agent)).map
      (verifyOne vo plan)

/-- `verifyChain` with its 45-second guard: when the race times out
(`vt = true`) the unverified results are returned unchanged. -/
def verifyStage (vo : VerifyOracle) (vt : Bool) (plan : TaskPlan)
    (results : List AgentResult) : List AgentResult :=
  if vt then results else doVerifyChain vo plan results

/-- `.trim()` on a string, character-level. -/
def trimStr (s : String) : String := String.mk (Cache.trimChars s.toList)

/-- `path.split('/')`. -/
def splitOnSlash : List Char → List (List Char)
  | [] => [[]]
  | c :: rest =>
      match splitOnSlash rest with
      | [] => [[]]
      | w :: ws => if c == '/' then [] :: w :: ws else (c :: w) :: ws

/-- `path.split('/').pop() || path`. -/
def lastSegment (path : String) : String :=
  match (splitOnSlash path.toList).getLast? with
  | some seg => if seg.isEmpty then path else String.mk seg
  | none => path

/-- `\d+\.json` anchored at the start of the list. -/
def digitsThenJson : List Char → Bool
  | [] => false
  | c :: rest =>
      c.isDigit &&
        (rest == ('.' :: 'j' :: 's' :: 'o' :: 'n' :: []) || digitsThenJson rest)

/-- `/^file\d+\.json$/i` or `/^data\d+\.json$/i` on a filename. -/
def isJunkName (filename : String) : Bool :=
  (match startsWithRem (filename.toList.map Char.toLower)
      ('f' :: 'i' :: 'l' :: 'e' :: []) with
   | some rest => digitsThenJson rest
   | none => false) ||
  (match startsWithRem (filename.toList.map Char.toLower)
      ('d' :: 'a' :: 't' :: 'a' :: []) with
   | some rest => digitsThenJson rest
   | none => false)

/-- Placeholder-only content (`'...'`, `'// TODO'`, `'/* TODO */'`). -/
def placeholderOnly (content : String) : Bool :=
  trimStr content == "..." || trimStr content == "// TODO"
    || trimStr content == "/* TODO */"

/-- The orchestrator's junk-file filter after merge. -/
def cleanFiles (files : List (String × String)) : List (String × String) :=
  files.filter (fun pc =>
    !(isJunkName (lastSegment pc.1)) && !(placeholderOnly pc.2)
      && !(trimStr pc.2 == ""))

/-- The top-level result record (`OrchestratorResult`). -/
structure OrchestratorResult where
  success : Bool
  projectName : String
  summary : String
  files : List (String × String)
  agentResults : List AgentResult
  totalDuration : Int
deriving DecidableEq, Repr

/-- Modelled from the spec: the final-verifier module
(`src/lib/executor/final-verifier`, imported as `finalVerify`) is not
part of the sources under review; §7's propagation policy makes a run
that produced no artifacts at all the only post-decomposition
whole-request failure, so the final gate is modelled as failing exactly
on an empty artifact map and passing every non-empty one through. -/
def finalVerifySpec (files : List (String × String)) :
    Except String (List (String × String)) :=
  if files.isEmpty then Except.error "No files generated"
  else Except.ok files

/-- The success/failure skeleton of `orchestrate` after the cache tiers
miss: decomposition (an `Except` — `Failed to parse task decomposition`
throws into the catch), parallel execution, verification, merge, the
junk filter, and the final gate; any step that throws lands in the
catch, which returns the single terminal failure object carrying the
error message as `summary`. -/
def orchestrateCore (dec : Except String TaskPlan) (behavior : Behavior)
    (vo : VerifyOracle) (vt : Bool)
    (resolver : Option (List (String × String))) (enableLogging : Bool) :
    OrchestratorResult :=
  match dec with
  | .error msg => ⟨false, "error", msg, [], [], 0⟩
  | .ok plan =>
      match finalVerifySpec (cleanFiles (merge enableLogging resolver
          (verifyStage vo vt plan (executeParallel behavior plan))).files) with
      | .error msg => ⟨false, "error", msg, [], [], 0⟩
      | .ok files =>
          ⟨true, plan.projectName, "completed", files,
            verifyStage vo vt plan (executeParallel behavior plan), 0⟩

lemma runTask_taskId (behavior : Behavior) (prev : List AgentResult)
    (task : SubTask) : (runTask behavior prev task).taskId = task.id := by
  unfold runTask
  cases behavior task prev <;> rfl

lemma execIds (behavior : Behavior) (plan : TaskPlan) :
    (executeParallel behavior plan).map (fun r => r.taskId)
      = (executedTasks plan).map (fun t => t.id) := by
  unfold executeParallel executedTasks
  suffices h : ∀ (l : List (List String)) (acc : List AgentResult)
      (accT : List SubTask),
      acc.map (fun r => r.taskId) = accT.map (fun t => t.id) →
      (l.foldl (fun allResults group => allResults ++
          (groupTasks plan group).map (runTask behavior allResults)) acc).map
        (fun r => r.taskId)
        = (l.foldl (fun a g => a ++ groupTasks plan g) accT).map
            (fun t => t.id) by
    exact h plan.parallelGroups [] [] rfl
  intro l
  induction l with
  | nil => intro acc accT h; simpa using h
  | cons g gs ih =>
      intro acc accT h
      simp only [List.foldl_cons]
      apply ih
      simp only [List.map_append, h, List.map_map]
      congr 1
      apply List.map_congr_left
      intro t _
      exact runTask_taskId behavior acc t

/-- C2: a rejected or timed-out task still yields a failure result whose
output carries the error message, and every executed task contributes
exactly its slot in the result list no matter how any task's execution
behaves — no failure aborts siblings or later groups. -/
theorem c2_partial_failure (behavior : Behavior) (plan : TaskPlan) :
    ((executeParallel behavior plan).map (fun r => r.taskId)
      = (executedTasks plan).map (fun t => t.id)) ∧
    (∀ task prev msg, behavior task prev = ExecOutcome.reject msg →
      (runTask behavior prev task).success = false ∧
      (runTask behavior prev task).output = "Error: " ++ msg) ∧
    (∀ task prev, behavior task prev = ExecOutcome.timeout →
      (runTask behavior prev task).success = false ∧
      (runTask behavior prev task).output
        = "Error: Agent " ++ task.agent ++ " timeout after 60s") := by
  refine ⟨execIds behavior plan, ?_, ?_⟩
  · intro task prev msg h
    unfold runTask
    rw [h]
    exact ⟨rfl, rfl⟩
  · intro task prev h
    unfold runTask
    rw [h]
    exact ⟨rfl, rfl⟩

/-- A two-task concrete sub-task. -/
def taskA : SubTask := ⟨"a", "frontend", "build a", [], "high"⟩

/-- A second concrete sub-task. -/
def taskB : SubTask := ⟨"b", "frontend", "build b", [], "high"⟩

/-- A plan whose group order disagrees with the task-list order. -/
def swappedPlan : TaskPlan := ⟨"p", "s", [taskA, taskB], [["b"], ["a"]]⟩

/-- A plan with one two-task group. -/
def pairPlan : TaskPlan := ⟨"p", "s", [taskA, taskB], [["a", "b"]]⟩

/-- A behaviour where every task succeeds. -/
def okBehavior : Behavior :=
  fun t _ => ExecOutcome.done ("out " ++ t.id) [] 1

/-- A behaviour where task `a` times out and the rest succeed. -/
def failABehavior : Behavior :=
  fun t _ => if t.id = "a" then ExecOutcome.timeout
    else ExecOutcome.done "ok" [] 1

/-- Witness for C2: task `a` times out, both tasks still report. -/
theorem c2_partial_failure_witness :
    (executeParallel failABehavior pairPlan).map (fun r => r.taskId)
      = ["a", "b"] ∧
    (runTask failABehavior [] taskA).success = false ∧
    (runTask failABehavior [] taskA).output
      = "Error: Agent frontend timeout after 60s" := by
  have h := c2_partial_failure failABehavior pairPlan
  refine ⟨?_, (h.2.2 taskA [] (by decide)).1, ?_⟩
  · rw [h.1]; decide
  · rw [(h.2.2 taskA [] (by decide)).2]; rfl

lemma count_filter_pred (p : SubTask → Bool) (t : SubTask) :
    ∀ l : List SubTask, (l.map (fun s => s.id)).Nodup → t ∈ l →
    ((l.filter p).map (fun s => s.id)).count t.id
      = if p t then 1 else 0 := by
  intro l
  induction l with
  | nil => intro _ ht; cases ht
  | cons s rest ih =>
      intro hnd ht
      simp only [List.map_cons, List.nodup_cons] at hnd
      rcases List.mem_cons.mp ht with rfl | ht
      · have hnotin : t.id ∉ (rest.filter p).map (fun s => s.id) := by
          intro hmem
          apply hnd.1
          obtain ⟨s1, hs1, hid⟩ := List.mem_map.mp hmem
          exact List.mem_map.mpr ⟨s1, (List.mem_filter.mp hs1).1, hid⟩
        cases hp : p t with
        | true =>
            simp [List.filter_cons, hp, List.count_cons,
              List.count_eq_zero.mpr hnotin]
        | false =>
            simp [List.filter_cons, hp, List.count_eq_zero.mpr hnotin]
      · have hne : s.id ≠ t.id := by
          intro he
          apply hnd.1
          rw [he]
          exact List.mem_map.mpr ⟨t, ht, rfl⟩
        have hbne : (s.id == t.id) = false := by
          simpa using hne
        have hrec := ih hnd.2 ht
        cases hp : p s with
        | true =>
            simp [List.filter_cons, hp, List.count_cons, hbne, hrec]
        | false =>
            simp [List.filter_cons, hp, hrec]

lemma executedTasks_eq_flatten (plan : TaskPlan) :
    executedTasks plan = (plan.parallelGroups.map (groupTasks plan)).flatten := by
  unfold executedTasks
  suffices h : ∀ (l : List (List String)) (acc : List SubTask),
      l.foldl (fun a g => a ++ groupTasks plan g) acc
        = acc ++ (l.map (groupTasks plan)).flatten by
    simpa using h plan.parallelGroups []
  intro l
  induction l with
  | nil => intro acc; simp
  | cons g gs ih => intro acc; simp [List.foldl_cons, ih]

lemma sum_count_groups (plan : TaskPlan) (t : SubTask)
    (hnd : (plan.subTasks.map (fun s => s.id)).Nodup)
    (ht : t ∈ plan.subTasks) :
    ∀ gs : List (List String),
    (((gs.map (groupTasks plan)).map (List.map (fun s => s.id))).map
      (List.count t.id)).sum = gs.countP (fun g => g.contains t.id) := by
  intro gs
  induction gs with
  | nil => rfl
  | cons g rest ih =>
      simp only [List.map_cons, List.sum_cons, List.countP_cons, ih]
      have hc := count_filter_pred (fun s => g.contains s.id) t
        plan.subTasks hnd ht
      have hgt : ((groupTasks plan g).map (fun s => s.id)).count t.id
          = if g.contains t.id then 1 else 0 := hc
      rw [hgt]
      cases hg : g.contains t.id
      · simp [hg]
      · simp [hg]; omega

lemma executedTasks_count (plan : TaskPlan)
    (hinv : planInvariantB plan = true) (t : SubTask)
    (ht : t ∈ plan.subTasks) :
    ((executedTasks plan).map (fun s => s.id)).count t.id = 1 := by
  unfold planInvariantB at hinv
  simp only [Bool.and_eq_true, decide_eq_true_eq, List.all_eq_true,
    beq_iff_eq] at hinv
  obtain ⟨⟨⟨hnd, _⟩, hone⟩, _⟩ := hinv
  rw [executedTasks_eq_flatten, List.map_flatten, List.count_flatten]
  have := sum_count_groups plan t hnd ht plan.parallelGroups
  rw [this]
  exact hone t ht

/-- C3 counterexample: a plan satisfying the §3 invariant whose group
order differs from task-declaration order — `executeParallel` returns
results in group-major order, not in task-list order. -/
theorem c3_claim_counterexample :
    planInvariantB swappedPlan = true ∧
    (executeParallel okBehavior swappedPlan).map (fun r => r.taskId)
      = ["b", "a"] ∧
    swappedPlan.subTasks.map (fun t => t.id) = ["a", "b"] ∧
    (["b", "a"] : List String) ≠ ["a", "b"] := by
  refine ⟨by decide, by decide, by decide, by decide⟩

/-- C3 (amended): under the §3 invariant, `executeParallel` returns
exactly one result per task regardless of behaviour, ordered group-major
(groups in declared order, tasks within a group in task-list order). -/
theorem c3_order_and_multiplicity (plan : TaskPlan) (behavior : Behavior)
    (hinv : planInvariantB plan = true) :
    (executeParallel behavior plan).map (fun r => r.taskId)
      = (executedTasks plan).map (fun t => t.id) ∧
    ∀ t ∈ plan.subTasks,
      ((executeParallel behavior plan).map (fun r => r.taskId)).count t.id
        = 1 := by
  refine ⟨execIds behavior plan, ?_⟩
  intro t ht
  rw [execIds behavior plan]
  exact executedTasks_count plan hinv t ht

/-- Witness for C3 (amended) on the swapped plan. -/
theorem c3_order_and_multiplicity_witness :
    ((executeParallel okBehavior swappedPlan).map (fun r => r.taskId)).count
      "a" = 1 := by
  have h := c3_order_and_multiplicity swappedPlan okBehavior (by decide)
  simpa using h.2 taskA (by decide)

lemma getLast?_mem_list {α : Type} (l : List α) (a : α)
    (h : l.getLast? = some a) : a ∈ l := by
  obtain ⟨hne, heq⟩ := List.mem_getLast?_eq_getLast
    (show a ∈ l.getLast? from h)
  rw [heq]
  exact List.getLast_mem hne

lemma getKey_eq_none (l : List (String × String)) (p : String)
    (h : p ∉ l.map Prod.fst) : getKey l p = none := by
  induction l with
  | nil => rfl
  | cons kv rest ih =>
      obtain ⟨k, v⟩ := kv
      simp only [List.map_cons, List.mem_cons] at h
      push_neg at h
      have hk : (k == p) = false := by
        simpa using (Ne.symm h.1)
      simp [getKey, hk]
      exact ih h.2

lemma getKey_setKey_same (k v : String) :
    ∀ l : List (String × String), getKey (setKey l k v) k = some v := by
  intro l
  induction l with
  | nil => simp [setKey, getKey]
  | cons kv rest ih =>
      obtain ⟨k0, v0⟩ := kv
      cases h : (k0 == k) with
      | true => simp [setKey, getKey, h]
      | false => simp [setKey, getKey, h, ih]

lemma getKey_setKey_other (k v q : String) (hne : q ≠ k) :
    ∀ l : List (String × String), getKey (setKey l k v) q = getKey l q := by
  have hkq : (k == q) = false := by simpa using (Ne.symm hne)
  intro l
  induction l with
  | nil => simp [setKey, getKey, hkq]
  | cons kv rest ih =>
      obtain ⟨k0, v0⟩ := kv
      cases h : (k0 == k) with
      | true =>
          have hk0 : k0 = k := by simpa using h
          subst hk0
          simp [setKey, getKey, h, hkq]
      | false => simp [setKey, getKey, h, ih]

lemma getConf_addConflict_same (p : String) (r : AgentResult) :
    ∀ l : List (String × List AgentResult),
    getConf (addConflict l p r) p = some ((getConf l p).getD [] ++ [r]) := by
  intro l
  induction l with
  | nil => simp [addConflict, getConf]
  | cons fs rest ih =>
      obtain ⟨f, srcs⟩ := fs
      cases h : (f == p) with
      | true => simp [addConflict, getConf, h]
      | false => simp [addConflict, getConf, h, ih]

lemma getConf_addConflict_other (p q : String) (r : AgentResult)
    (hne : q ≠ p) :
    ∀ l : List (String × List AgentResult),
    getConf (addConflict l p r) q = getConf l q := by
  have hpq : (p == q) = false := by simpa using (Ne.symm hne)
  intro l
  induction l with
  | nil => simp [addConflict, getConf, hpq]
  | cons fs rest ih =>
      obtain ⟨f, srcs⟩ := fs
      cases h : (f == p) with
      | true =>
          have hf : f = p := by simpa using h
          subst hf
          simp [addConflict, getConf, h, hpq]
      | false => simp [addConflict, getConf, h, ih]

lemma addConflict_key_mem (p q : String) (r : AgentResult) :
    ∀ l : List (String × List AgentResult),
    q ∈ (addConflict l p r).map Prod.fst → q ∈ l.map Prod.fst ∨ q = p := by
  intro l
  induction l with
  | nil =>
      intro h
      simp [addConflict] at h
      exact Or.inr h
  | cons fs rest ih =>
      obtain ⟨f, srcs⟩ := fs
      cases h : (f == p) with
      | true =>
          intro hm
          simp only [addConflict, h, if_true, List.map_cons] at hm
          rw [List.map_cons]
          rcases List.mem_cons.mp hm with h1 | h1
          · exact Or.inl (List.mem_cons.mpr (Or.inl h1))
          · exact Or.inl (List.mem_cons.mpr (Or.inr h1))
      | false =>
          intro hm
          simp only [addConflict, h, Bool.false_eq_true, if_false,
            List.map_cons] at hm
          rw [List.map_cons]
          rcases List.mem_cons.mp hm with h1 | h1
          · exact Or.inl (List.mem_cons.mpr (Or.inl h1))
          · rcases ih h1 with h2 | h2
            · exact Or.inl (List.mem_cons.mpr (Or.inr h2))
            · exact Or.inr h2

lemma addConflict_keys_nodup (p : String) (r : AgentResult) :
    ∀ l : List (String × List AgentResult),
    (l.map Prod.fst).Nodup → ((addConflict l p r).map Prod.fst).Nodup := by
  intro l
  induction l with
  | nil => intro _; simp [addConflict]
  | cons fs rest ih =>
      obtain ⟨f, srcs⟩ := fs
      intro hnd
      simp only [List.map_cons, List.nodup_cons] at hnd
      cases h : (f == p) with
      | true => simp only [addConflict, h, if_true, List.map_cons,
          List.nodup_cons]; exact hnd
      | false =>
          have hfp : f ≠ p := by simpa using h
          simp only [addConflict, h, Bool.false_eq_true, if_false,
            List.map_cons, List.nodup_cons]
          refine ⟨?_, ih hnd.2⟩
          intro hm
          rcases addConflict_key_mem p f r rest hm with h1 | h1
          · exact hnd.1 h1
          · exact hfp h1

lemma getConf_mem (p : String) (srcs : List AgentResult) :
    ∀ l : List (String × List AgentResult),
    getConf l p = some srcs → (p, srcs) ∈ l := by
  intro l
  induction l with
  | nil => intro h; cases h
  | cons fs rest ih =>
      obtain ⟨f, s⟩ := fs
      cases h : (f == p) with
      | true =>
          intro hg
          simp only [getConf, h, if_true] at hg
          injection hg with hg
          have hf : f = p := by simpa using h
          subst hf hg
          exact List.mem_cons_self _ _
      | false =>
          intro hg
          simp only [getConf, h, Bool.false_eq_true, if_false] at hg
          exact List.mem_cons_of_mem _ (ih hg)

lemma getConf_of_mem_nodup (p : String) (srcs : List AgentResult) :
    ∀ l : List (String × List AgentResult),
    (l.map Prod.fst).Nodup → (p, srcs) ∈ l → getConf l p = some srcs := by
  intro l
  induction l with
  | nil => intro _ h; cases h
  | cons fs rest ih =>
      obtain ⟨f, s⟩ := fs
      intro hnd hm
      simp only [List.map_cons, List.nodup_cons] at hnd
      rcases List.mem_cons.mp hm with h1 | h1
      · injection h1 with h1a h1b
        subst h1a h1b
        simp [getConf]
      · have hfp : (f == p) = false := by
          have hpmem : p ∈ rest.map Prod.fst :=
            List.mem_map.mpr ⟨(p, srcs), h1, rfl⟩
          have : f ≠ p := fun he => hnd.1 (he ▸ hpmem)
          simpa using this
        simp only [getConf, hfp, Bool.false_eq_true, if_false]
        exact ih hnd.2 h1

/-- The condition under which processing a file list `fs` against an
existing union records (or extends) a conflict at `p`. -/
def trigger (allFiles fs : List (String × String)) (p : String) : Prop :=
  isForbidden p = false ∧ (getKey fs p).isSome = true ∧
    (getKey allFiles p).getD "" ≠ "" ∧
    (getKey allFiles p).getD "" ≠ (getKey fs p).getD ""

instance (allFiles fs : List (String × String)) (p : String) :
    Decidable (trigger allFiles fs p) := by
  unfold trigger
  infer_instance

lemma mergeFile_getKey_other (r : AgentResult) (acc : MergeAcc)
    (f1 c1 : String) (p : String) (hne : p ≠ f1) :
    getKey (mergeFile r acc (f1, c1)).allFiles p = getKey acc.allFiles p := by
  unfold mergeFile
  by_cases hforb : isForbidden f1 = true
  · rw [if_pos hforb]
  · rw [if_neg hforb]
    exact getKey_setKey_other f1 c1 p hne acc.allFiles

lemma mergeFile_getConf_other (r : AgentResult) (acc : MergeAcc)
    (f1 c1 : String) (p : String) (hne : p ≠ f1) :
    getConf (mergeFile r acc (f1, c1)).conflicts p
      = getConf acc.conflicts p := by
  unfold mergeFile
  by_cases hforb : isForbidden f1 = true
  · rw [if_pos hforb]
  · rw [if_neg hforb]
    by_cases hv : (getKey acc.allFiles f1).getD "" ≠ "" ∧
        (getKey acc.allFiles f1).getD "" ≠ c1
    · simp only [if_pos hv]
      exact getConf_addConflict_other f1 p r hne acc.conflicts
    · simp only [if_neg hv]

lemma mergeFile_keys_nodup (r : AgentResult) (acc : MergeAcc)
    (f1 c1 : String) (hnd : (acc.conflicts.map Prod.fst).Nodup) :
    ((mergeFile r acc (f1, c1)).conflicts.map Prod.fst).Nodup := by
  unfold mergeFile
  by_cases hforb : isForbidden f1 = true
  · rw [if_pos hforb]; exact hnd
  · rw [if_neg hforb]
    by_cases hv : (getKey acc.allFiles f1).getD "" ≠ "" ∧
        (getKey acc.allFiles f1).getD "" ≠ c1
    · simp only [if_pos hv]
      exact addConflict_keys_nodup f1 r acc.conflicts hnd
    · simp only [if_neg hv]; exact hnd

lemma foldl_mergeFile_spec (r : AgentResult) :
    ∀ (fs : List (String × String)) (acc : MergeAcc),
    (fs.map Prod.fst).Nodup →
    ∀ p,
    (getKey (fs.foldl (mergeFile r) acc).allFiles p =
      match getKey fs p with
      | some c => if isForbidden p = true then getKey acc.allFiles p else some c
      | none => getKey acc.allFiles p) ∧
    (getConf (fs.foldl (mergeFile r) acc).conflicts p =
      if trigger acc.allFiles fs p then
        some ((getConf acc.conflicts p).getD [] ++ [r])
      else getConf acc.conflicts p) ∧
    ((acc.conflicts.map Prod.fst).Nodup →
      ((fs.foldl (mergeFile r) acc).conflicts.map Prod.fst).Nodup) := by
  intro fs
  induction fs with
  | nil =>
      intro acc _ p
      refine ⟨by simp [getKey], ?_, fun h => h⟩
      have hno : ¬ trigger acc.allFiles [] p := by
        rintro ⟨-, hs, -⟩
        simp [getKey] at hs
      simp [hno]
  | cons fc fs ih =>
      obtain ⟨f1, c1⟩ := fc
      intro acc hnd p
      have hnd2 : (fs.map Prod.fst).Nodup ∧ f1 ∉ fs.map Prod.fst := by
        simp only [List.map_cons, List.nodup_cons] at hnd
        exact ⟨hnd.2, hnd.1⟩
      simp only [List.foldl_cons]
      by_cases hpf : p = f1
      · subst hpf
        have hkey : getKey ((p, c1) :: fs) p = some c1 := by simp [getKey]
        have hfs : getKey fs p = none := getKey_eq_none fs p hnd2.2
        obtain ⟨IH1, IH2, IH3⟩ := ih (mergeFile r acc (p, c1)) hnd2.1 p
        rw [hfs] at IH1
        simp only at IH1
        have hIH2 : getConf ((fs.foldl (mergeFile r)
            (mergeFile r acc (p, c1)))).conflicts p
            = getConf (mergeFile r acc (p, c1)).conflicts p := by
          rw [IH2, if_neg ?hno2]
          case hno2 =>
            rintro ⟨-, hs, -⟩
            rw [hfs] at hs
            cases hs
        by_cases hforb : isForbidden p = true
        · have hmf : mergeFile r acc (p, c1) = acc := by
            unfold mergeFile
            rw [if_pos hforb]
          have hrhs : (match getKey ((p, c1) :: fs) p with
              | some c =>
                  if isForbidden p = true then getKey acc.allFiles p
                  else some c
              | none => getKey acc.allFiles p) = getKey acc.allFiles p := by
            rw [hkey]
            simp [hforb]
          rw [hmf] at IH1 hIH2 IH3 ⊢
          refine ⟨by rw [IH1, hrhs], ?_, IH3⟩
          rw [hIH2, if_neg ?hno3]
          case hno3 =>
            rintro ⟨hforb2, -⟩
            rw [hforb] at hforb2
            cases hforb2
        · have hforbf : isForbidden p = false := by
            cases h : isForbidden p
            · rfl
            · exact absurd h hforb
          have hmfa : (mergeFile r acc (p, c1)).allFiles
              = setKey acc.allFiles p c1 := by
            unfold mergeFile
            rw [if_neg hforb]
          have hmfc : (mergeFile r acc (p, c1)).conflicts
              = if (getKey acc.allFiles p).getD "" ≠ "" ∧
                  (getKey acc.allFiles p).getD "" ≠ c1 then
                  addConflict acc.conflicts p r
                else acc.conflicts := by
            unfold mergeFile
            rw [if_neg hforb]
          have hrhs : (match getKey ((p, c1) :: fs) p with
              | some c =>
                  if isForbidden p = true then getKey acc.allFiles p
                  else some c
              | none => getKey acc.allFiles p) = some c1 := by
            rw [hkey]
            simp [hforbf]
          refine ⟨?_, ?_, ?_⟩
          · rw [IH1, hmfa, hrhs]
            exact getKey_setKey_same p c1 acc.allFiles
          · rw [hIH2, hmfc]
            by_cases hv : (getKey acc.allFiles p).getD "" ≠ "" ∧
                (getKey acc.allFiles p).getD "" ≠ c1
            · rw [if_pos hv, getConf_addConflict_same p r acc.conflicts,
                if_pos ?hyes]
              case hyes =>
                refine ⟨hforbf, by rw [hkey]; rfl, hv.1, ?_⟩
                rw [hkey]
                exact hv.2
            · rw [if_neg hv, if_neg ?hno4]
              case hno4 =>
                rintro ⟨-, -, h1, h2⟩
                rw [hkey] at h2
                exact hv ⟨h1, h2⟩
          · intro hndc
            apply IH3
            exact mergeFile_keys_nodup r acc p c1 hndc
      · have hb : (f1 == p) = false := by
          simpa using (Ne.symm hpf)
        have hkey : getKey ((f1, c1) :: fs) p = getKey fs p := by
          simp [getKey, hb]
        obtain ⟨IH1, IH2, IH3⟩ := ih (mergeFile r acc (f1, c1)) hnd2.1 p
        have haf := mergeFile_getKey_other r acc f1 c1 p hpf
        have hcf := mergeFile_getConf_other r acc f1 c1 p hpf
        have htr : trigger (mergeFile r acc (f1, c1)).allFiles fs p ↔
            trigger acc.allFiles ((f1, c1) :: fs) p := by
          unfold trigger
          rw [haf, hkey]
        refine ⟨?_, ?_, ?_⟩
        · rw [IH1, haf, hkey]
        · rw [IH2, hcf]
          exact if_congr htr rfl rfl
        · intro hndc
          apply IH3
          exact mergeFile_keys_nodup r acc f1 c1 hndc

lemma foldl_mergeFile_getKey_none (r : AgentResult)
    (fs : List (String × String)) (acc : MergeAcc)
    (hnd : (fs.map Prod.fst).Nodup) (p : String)
    (h : getKey fs p = none) :
    getKey (fs.foldl (mergeFile r) acc).allFiles p
      = getKey acc.allFiles p := by
  have hs := (foldl_mergeFile_spec r fs acc hnd p).1
  rw [h] at hs
  exact hs

lemma foldl_mergeFile_getKey_some (r : AgentResult)
    (fs : List (String × String)) (acc : MergeAcc)
    (hnd : (fs.map Prod.fst).Nodup) (p c : String)
    (h : getKey fs p = some c) :
    getKey (fs.foldl (mergeFile r) acc).allFiles p
      = if isForbidden p = true then getKey acc.allFiles p else some c := by
  have hs := (foldl_mergeFile_spec r fs acc hnd p).1
  rw [h] at hs
  exact hs

lemma mergeResult_none (acc : MergeAcc) (r : AgentResult)
    (h : r.files = none) : mergeResult acc r = acc := by
  unfold mergeResult
  rw [h]

lemma mergeResult_some (acc : MergeAcc) (r : AgentResult)
    (fs : List (String × String)) (h : r.files = some fs) :
    mergeResult acc r = fs.foldl (mergeFile r) acc := by
  unfold mergeResult
  rw [h]

lemma producedAt_eq (r : AgentResult) (fs : List (String × String))
    (h : r.files = some fs) (p : String) : producedAt r p = getKey fs p := by
  unfold producedAt
  rw [h]

lemma contentsAt_append_one (done : List AgentResult) (r : AgentResult)
    (p : String) :
    contentsAt (done ++ [r]) p
      = contentsAt done p ++ (producedAt r p).toList := by
  unfold contentsAt
  rw [List.filterMap_append]
  cases h : producedAt r p with
  | none => simp [List.filterMap_cons, h]
  | some c => simp [List.filterMap_cons, h]

lemma producersAt_append_one (done : List AgentResult) (r : AgentResult)
    (p : String) :
    producersAt (done ++ [r]) p
      = producersAt done p ++
          (if (producedAt r p).isSome then [r] else []) := by
  unfold producersAt
  rw [List.filter_append]
  cases h : producedAt r p with
  | none => simp [List.filter_cons, h]
  | some c => simp [List.filter_cons, h]

lemma producersAt_ne_nil (done : List AgentResult) (p : String)
    (h : contentsAt done p ≠ []) : producersAt done p ≠ [] := by
  induction done with
  | nil => exact absurd rfl h
  | cons r rest ih =>
      cases hr : producedAt r p with
      | none =>
          have h2 : contentsAt rest p ≠ [] := by
            simp only [contentsAt, List.filterMap_cons, hr] at h
            exact h
          have h3 := ih h2
          simp only [producersAt, List.filter_cons, hr, Option.isSome_none,
            Bool.false_eq_true, if_false] at h3 ⊢
          exact h3
      | some c =>
          simp only [producersAt, List.filter_cons, hr]
          simp

lemma head?_append_left {α : Type} (A B : List α) (hA : A ≠ []) :
    (A ++ B).head? = A.head? := by
  cases A with
  | nil => exact absurd rfl hA
  | cons a A2 => rfl

/-- The invariant the merger's union loop maintains over the processed
prefix `done` of the result list. -/
def MergeInv (done : List AgentResult) (acc : MergeAcc) : Prop :=
  ((acc.conflicts.map Prod.fst).Nodup) ∧
  (∀ p, isForbidden p = true → getKey acc.allFiles p = none) ∧
  (∀ p, isForbidden p = false →
    getKey acc.allFiles p = (contentsAt done p).getLast?) ∧
  (∀ p srcs, getConf acc.conflicts p = some srcs →
    isForbidden p = false ∧
    (∃ c1 ∈ contentsAt done p, ∃ c2 ∈ contentsAt done p, c1 ≠ c2) ∧
    srcs ≠ [] ∧ (∀ s ∈ srcs, s ∈ done)) ∧
  (∀ p, isForbidden p = false → (∀ c ∈ contentsAt done p, c ≠ "") →
    (∃ c1 ∈ contentsAt done p, ∃ c2 ∈ contentsAt done p, c1 ≠ c2) →
    (getConf acc.conflicts p).isSome = true) ∧
  (∀ p srcs, getConf acc.conflicts p = some srcs →
    ∀ f, (producersAt done p).head? = some f → f ∉ srcs)

lemma mergeInv_nil : MergeInv [] ⟨[], []⟩ := by
  unfold MergeInv
  refine ⟨?_, ?_, ?_, ?_, ?_, ?_⟩
  · simp
  · intro p _
    rfl
  · intro p _
    rfl
  · intro p srcs h
    cases h
  · intro p _ _ hdiff
    obtain ⟨c1, hc1, -⟩ := hdiff
    simp [contentsAt] at hc1
  · intro p srcs h
    cases h

lemma mergeInv_step (done : List AgentResult) (acc : MergeAcc)
    (r : AgentResult) (hinv : MergeInv done acc)
    (hkeys : ∀ fs, r.files = some fs → (fs.map Prod.fst).Nodup)
    (hfresh : ∀ s ∈ done, s ≠ r) :
    MergeInv (done ++ [r]) (mergeResult acc r) := by
  obtain ⟨J0, J1t, J1, J2, J3, J4⟩ := hinv
  cases hrf : r.files with
  | none =>
      rw [mergeResult_none acc r hrf]
      have hpr : ∀ p, producedAt r p = none := by
        intro p; unfold producedAt; rw [hrf]
      have hca : ∀ p, contentsAt (done ++ [r]) p = contentsAt done p := by
        intro p; rw [contentsAt_append_one]; simp [hpr p]
      have hpa : ∀ p, producersAt (done ++ [r]) p = producersAt done p := by
        intro p; rw [producersAt_append_one]; simp [hpr p]
      refine ⟨J0, J1t, ?_, ?_, ?_, ?_⟩
      · intro p hp; rw [hca p]; exact J1 p hp
      · intro p srcs h
        obtain ⟨a, b, c, d⟩ := J2 p srcs h
        exact ⟨a, by rw [hca p]; exact b, c,
          fun s hs => List.mem_append_left _ (d s hs)⟩
      · intro p hp hne hdiff
        rw [hca p] at hne hdiff
        exact J3 p hp hne hdiff
      · intro p srcs h f hf
        rw [hpa p] at hf
        exact J4 p srcs h f hf
  | some fs =>
      rw [mergeResult_some acc r fs hrf]
      have hnd := hkeys fs hrf
      have hpr : ∀ p, producedAt r p = getKey fs p := producedAt_eq r fs hrf
      have hCA : ∀ p, contentsAt (done ++ [r]) p
          = contentsAt done p ++ (getKey fs p).toList := by
        intro p; rw [contentsAt_append_one, hpr p]
      refine ⟨(foldl_mergeFile_spec r fs acc hnd "").2.2 J0, ?_, ?_, ?_, ?_, ?_⟩
      · -- forbidden paths never enter the union
        intro p hp
        cases hgf : getKey fs p with
        | none => rw [foldl_mergeFile_getKey_none r fs acc hnd p hgf]
                  exact J1t p hp
        | some c =>
            rw [foldl_mergeFile_getKey_some r fs acc hnd p c hgf, if_pos hp]
            exact J1t p hp
      · -- the union holds the last write
        intro p hp
        cases hgf : getKey fs p with
        | none =>
            rw [foldl_mergeFile_getKey_none r fs acc hnd p hgf, hCA p, hgf]
            simp only [Option.toList_none, List.append_nil]
            exact J1 p hp
        | some c =>
            rw [foldl_mergeFile_getKey_some r fs acc hnd p c hgf,
              if_neg (by rw [hp]; exact Bool.false_ne_true), hCA p, hgf]
            simp only [Option.toList_some]
            rw [List.getLast?_concat]
      · -- recorded conflicts are sound
        intro p srcs h
        rw [(foldl_mergeFile_spec r fs acc hnd p).2.1] at h
        by_cases htrig : trigger acc.allFiles fs p
        · rw [if_pos htrig] at h
          injection h with h
          obtain ⟨hforbf, hsome, hvne, hvc⟩ := htrig
          obtain ⟨c, hgf⟩ := Option.isSome_iff_exists.mp hsome
          cases hga : getKey acc.allFiles p with
          | none => rw [hga] at hvne; exact absurd rfl hvne
          | some v =>
              rw [hga] at hvne hvc
              rw [hgf] at hvc
              simp only [Option.getD_some] at hvne hvc
              have hvmem : v ∈ contentsAt done p := by
                apply getLast?_mem_list
                rw [← J1 p hforbf]
                exact hga
              refine ⟨hforbf, ⟨v, ?_, c, ?_, hvc⟩, ?_, ?_⟩
              · rw [hCA p]; exact List.mem_append_left _ hvmem
              · rw [hCA p, hgf]
                exact List.mem_append_right _ (by simp)
              · rw [← h]; simp
              · intro s hs
                rw [← h] at hs
                rcases List.mem_append.mp hs with hm | hm
                · cases hgc : getConf acc.conflicts p with
                  | none => rw [hgc] at hm; cases hm
                  | some srcs0 =>
                      rw [hgc] at hm
                      simp only [Option.getD_some] at hm
                      exact List.mem_append_left _
                        ((J2 p srcs0 hgc).2.2.2 s hm)
                · rw [List.mem_singleton.mp hm]
                  exact List.mem_append_right _ (by simp)
        · rw [if_neg htrig] at h
          obtain ⟨a, ⟨c1, hc1, c2, hc2, hne12⟩, c, d⟩ := J2 p srcs h
          refine ⟨a, ⟨c1, ?_, c2, ?_, hne12⟩, c,
            fun s hs => List.mem_append_left _ (d s hs)⟩
          · rw [hCA p]; exact List.mem_append_left _ hc1
          · rw [hCA p]; exact List.mem_append_left _ hc2
      · -- differing truthy writes always record a conflict
        intro p hp hne hdiff
        rw [(foldl_mergeFile_spec r fs acc hnd p).2.1]
        by_cases hdiffold : ∃ c1 ∈ contentsAt done p,
            ∃ c2 ∈ contentsAt done p, c1 ≠ c2
        · have hold := J3 p hp
            (fun c hc => hne c (by rw [hCA p]; exact List.mem_append_left _ hc))
            hdiffold
          by_cases htrig : trigger acc.allFiles fs p
          · rw [if_pos htrig]; rfl
          · rw [if_neg htrig]; exact hold
        · push_neg at hdiffold
          cases hgf : getKey fs p with
          | none =>
              exfalso
              rw [hCA p, hgf] at hdiff
              simp only [Option.toList_none, List.append_nil] at hdiff
              obtain ⟨c1, hc1, c2, hc2, hne12⟩ := hdiff
              exact hne12 (hdiffold c1 hc1 c2 hc2)
          | some c =>
              cases hcd : contentsAt done p with
              | nil =>
                  exfalso
                  rw [hCA p, hgf, hcd] at hdiff
                  simp only [Option.toList_some, List.nil_append] at hdiff
                  obtain ⟨c1, hc1, c2, hc2, hne12⟩ := hdiff
                  rw [List.mem_singleton.mp hc1,
                    List.mem_singleton.mp hc2] at hne12
                  exact hne12 rfl
              | cons c0 cs =>
                  have hlastS : (contentsAt done p).getLast?.isSome = true := by
                    rw [List.getLast?_isSome, hcd]
                    simp
                  obtain ⟨v, hv⟩ := Option.isSome_iff_exists.mp hlastS
                  have hgacc : getKey acc.allFiles p = some v := by
                    rw [J1 p hp, hv]
                  have hvmem : v ∈ contentsAt done p :=
                    getLast?_mem_list _ _ hv
                  have hvne : v ≠ "" :=
                    hne v (by rw [hCA p]; exact List.mem_append_left _ hvmem)
                  have hcnev : c ≠ v := by
                    intro he
                    obtain ⟨c1, hc1, c2, hc2, hne12⟩ := hdiff
                    apply hne12
                    have hall : ∀ x ∈ contentsAt (done ++ [r]) p, x = v := by
                      intro x hx
                      rw [hCA p, hgf] at hx
                      rcases List.mem_append.mp hx with hx | hx
                      · exact hdiffold x hx v hvmem
                      · rw [List.mem_singleton.mp hx]
                        exact he
                    rw [hall c1 hc1, hall c2 hc2]
                  have htrig : trigger acc.allFiles fs p := by
                    refine ⟨hp, by rw [hgf]; rfl, ?_, ?_⟩
                    · rw [hgacc]; exact hvne
                    · rw [hgacc, hgf]
                      simp only [Option.getD_some]
                      exact fun he => hcnev he.symm
                  rw [if_pos htrig]
                  rfl
      · -- a path's first contributor never appears in its sources
        intro p srcs h f hf
        rw [(foldl_mergeFile_spec r fs acc hnd p).2.1] at h
        rw [producersAt_append_one done r p] at hf
        by_cases htrig : trigger acc.allFiles fs p
        · rw [if_pos htrig] at h
          injection h with h
          obtain ⟨hforbf, hsome, hvne, -⟩ := htrig
          have hcne : contentsAt done p ≠ [] := by
            cases hga : getKey acc.allFiles p with
            | none => rw [hga] at hvne; exact absurd rfl hvne
            | some v =>
                have hJ := J1 p hforbf
                rw [hga] at hJ
                intro hnil
                rw [hnil] at hJ
                cases hJ
          have hpne := producersAt_ne_nil done p hcne
          rw [head?_append_left _ _ hpne] at hf
          have hfdone : f ∈ done :=
            (List.mem_filter.mp
              (List.mem_of_mem_head? (show f ∈ (producersAt done p).head?
                from hf))).1
          rw [← h]
          intro hmem
          rcases List.mem_append.mp hmem with hm | hm
          · cases hgc : getConf acc.conflicts p with
            | none => rw [hgc] at hm; cases hm
            | some srcs0 =>
                rw [hgc] at hm
                simp only [Option.getD_some] at hm
                exact J4 p srcs0 hgc f hf hm
          · exact hfresh f hfdone (List.mem_singleton.mp hm)
        · rw [if_neg htrig] at h
          have hcne : contentsAt done p ≠ [] := by
            obtain ⟨-, ⟨c1, hc1, -⟩, -⟩ := J2 p srcs h
            intro hnil
            rw [hnil] at hc1
            cases hc1
          have hpne := producersAt_ne_nil done p hcne
          rw [head?_append_left _ _ hpne] at hf
          exact J4 p srcs h f hf

lemma mergeCore_inv (results : List AgentResult)
    (hids : (results.map (fun r => r.taskId)).Nodup)
    (hkeys : ∀ r ∈ results, ∀ fs, r.files = some fs →
      (fs.map Prod.fst).Nodup) :
    MergeInv results (mergeCore results) := by
  suffices h : ∀ (rest done : List AgentResult) (acc : MergeAcc),
      MergeInv done acc →
      ((done ++ rest).map (fun r => r.taskId)).Nodup →
      (∀ r ∈ rest, ∀ fs, r.files = some fs → (fs.map Prod.fst).Nodup) →
      MergeInv (done ++ rest) (rest.foldl mergeResult acc) by
    have := h results [] ⟨[], []⟩ mergeInv_nil (by simpa using hids) hkeys
    simpa [mergeCore] using this
  intro rest
  induction rest with
  | nil =>
      intro done acc hinv _ _
      simpa using hinv
  | cons r rest ih =>
      intro done acc hinv hnd hkeys2
      have hfresh : ∀ s ∈ done, s ≠ r := by
        intro s hs he
        rw [List.map_append] at hnd
        have hdisj := (List.nodup_append.mp hnd).2.2
        exact hdisj (List.mem_map.mpr ⟨s, hs, rfl⟩)
          (by rw [List.map_cons]; rw [he]; exact List.mem_cons_self _ _)
      have hstep := mergeInv_step done acc r hinv
        (fun fs hfs => hkeys2 r (List.mem_cons_self _ _) fs hfs) hfresh
      have hrec := ih (done ++ [r]) (mergeResult acc r) hstep
        (by simpa using hnd)
        (fun r2 hr2 fs hfs => hkeys2 r2 (List.mem_cons_of_mem _ hr2) fs hfs)
      simpa using hrec

/-- Two concrete results writing different content at the same path. -/
def resA : AgentResult :=
  ⟨"a", "frontend", true, "oa", some [("App.tsx", "contentA")], 1⟩

/-- The second, later-merged conflicting result. -/
def resB : AgentResult :=
  ⟨"b", "backend", true, "ob", some [("App.tsx", "contentB")], 1⟩

/-- C4 counterexample: two tasks produce differing non-deny-listed
content at `App.tsx`, but the recorded conflict entry's source list is
`[resB]` alone — it does not carry the first contributing task. -/
theorem c4_claim_counterexample :
    (mergeCore [resA, resB]).conflicts = [("App.tsx", [resB])] ∧
    producedAt resA "App.tsx" = some "contentA" ∧
    producedAt resB "App.tsx" = some "contentB" ∧
    isForbidden "App.tsx" = false ∧
    resA ∉ [resB] := by
  refine ⟨by decide, by decide, by decide, by decide, by decide⟩

/-- C4 (amended): a path appears in the conflict list only if two tasks
produced differing non-deny-listed content there; it certainly appears
when all contents written at it are non-empty and two differ; identical
content records no conflict; and the entry's sources never include the
path's first contributor — only later conflicting writers. -/
theorem c4_conflict_detection (results : List AgentResult)
    (hids : (results.map (fun r => r.taskId)).Nodup)
    (hkeys : ∀ r ∈ results, ∀ fs, r.files = some fs →
      (fs.map Prod.fst).Nodup) :
    (∀ p srcs, (p, srcs) ∈ (mergeCore results).conflicts →
      isForbidden p = false ∧
      (∃ c1 ∈ contentsAt results p, ∃ c2 ∈ contentsAt results p, c1 ≠ c2) ∧
      srcs ≠ [] ∧ (∀ s ∈ srcs, s ∈ results)) ∧
    (∀ p, isForbidden p = false →
      (∀ c ∈ contentsAt results p, c ≠ "") →
      (∃ c1 ∈ contentsAt results p, ∃ c2 ∈ contentsAt results p, c1 ≠ c2) →
      p ∈ (mergeCore results).conflicts.map Prod.fst) ∧
    (∀ p srcs, (p, srcs) ∈ (mergeCore results).conflicts →
      ∀ f, (producersAt results p).head? = some f → f ∉ srcs) ∧
    (∀ p, (∀ c1 ∈ contentsAt results p, ∀ c2 ∈ contentsAt results p,
        c1 = c2) →
      p ∉ (mergeCore results).conflicts.map Prod.fst) := by
  obtain ⟨J0, J1t, J1, J2, J3, J4⟩ := mergeCore_inv results hids hkeys
  have hsound : ∀ p srcs, (p, srcs) ∈ (mergeCore results).conflicts →
      isForbidden p = false ∧
      (∃ c1 ∈ contentsAt results p, ∃ c2 ∈ contentsAt results p, c1 ≠ c2) ∧
      srcs ≠ [] ∧ (∀ s ∈ srcs, s ∈ results) := by
    intro p srcs hm
    exact J2 p srcs (getConf_of_mem_nodup p srcs (mergeCore results).conflicts
      J0 hm)
  refine ⟨hsound, ?_, ?_, ?_⟩
  · intro p hforb hne hdiff
    have hs := J3 p hforb hne hdiff
    obtain ⟨srcs, hsrcs⟩ := Option.isSome_iff_exists.mp hs
    exact List.mem_map.mpr
      ⟨(p, srcs), getConf_mem p srcs (mergeCore results).conflicts hsrcs, rfl⟩
  · intro p srcs hm
    exact J4 p srcs (getConf_of_mem_nodup p srcs (mergeCore results).conflicts
      J0 hm)
  · intro p hall hmem
    obtain ⟨⟨q, srcs⟩, hqs, hq⟩ := List.mem_map.mp hmem
    simp only at hq
    subst hq
    obtain ⟨-, ⟨c1, hc1, c2, hc2, hne12⟩, -, -⟩ := hsound q srcs hqs
    exact hne12 (hall c1 hc1 c2 hc2)

/-- Witness for C4 (amended) on the concrete conflicting pair. -/
theorem c4_conflict_detection_witness :
    "App.tsx" ∈ (mergeCore [resA, resB]).conflicts.map Prod.fst := by
  have h := c4_conflict_detection [resA, resB] (by decide)
    (by decide)
  apply h.2.1 "App.tsx" (by decide)
  · decide
  · decide

/-- C5: the conflict-resolution block runs only when `enableLogging` is
set — with logging disabled, a merge with a recorded conflict issues no
specialist call at all and silently keeps last-write-wins; with logging
enabled it issues exactly one call, keeps the union when the call fails,
and applies the resolved map by overwrite when it parses. -/
theorem c5_resolution_gated_on_logging :
    0 < (mergeCore [resA, resB]).conflicts.length ∧
    (merge false none [resA, resB]).specialistCalls = 0 ∧
    (merge true none [resA, resB]).specialistCalls = 1 ∧
    (merge true none [resA, resB]).files = [("App.tsx", "contentB")] ∧
    (merge true (some [("App.tsx", "resolved")]) [resA, resB]).files
      = [("App.tsx", "resolved")] := by
  refine ⟨by decide, by decide, by decide, by decide, by decide⟩

lemma executeParallel_mem (behavior : Behavior) (plan : TaskPlan) :
    ∀ r ∈ executeParallel behavior plan,
    ∃ prev task, r = runTask behavior prev task := by
  unfold executeParallel
  suffices h : ∀ (l : List (List String)) (acc : List AgentResult),
      (∀ r ∈ acc, ∃ prev task, r = runTask behavior prev task) →
      ∀ r ∈ l.foldl (fun allResults group => allResults ++
          (groupTasks plan group).map (runTask behavior allResults)) acc,
        ∃ prev task, r = runTask behavior prev task by
    exact h plan.parallelGroups [] (by intro r hr; cases hr)
  intro l
  induction l with
  | nil => intro acc hacc r hr; exact hacc r hr
  | cons g gs ih =>
      intro acc hacc
      simp only [List.foldl_cons]
      apply ih
      intro r hr
      rcases List.mem_append.mp hr with hr | hr
      · exact hacc r hr
      · obtain ⟨task, htask, hrt⟩ := List.mem_map.mp hr
        exact ⟨acc, task, hrt.symm⟩

lemma runTask_failed_files (behavior : Behavior) (prev : List AgentResult)
    (task : SubTask) (h : (runTask behavior prev task).success = false) :
    (runTask behavior prev task).files = none ∨
    (runTask behavior prev task).files = some [] := by
  cases hb : behavior task prev with
  | done out fs d => simp [runTask, hb] at h
  | thrown msg d => left; simp [runTask, hb]
  | reject msg => right; simp [runTask, hb]
  | timeout => right; simp [runTask, hb]

lemma verifyStage_failed (vo : VerifyOracle) (vt : Bool) (plan : TaskPlan)
    (results : List AgentResult)
    (hres : ∀ r ∈ results, r.success = false ∧
      (r.files = none ∨ r.files = some []))
    (hvo : ∀ r out fs, r.success = false → vo r = some (out, fs) → fs = []) :
    ∀ r2 ∈ verifyStage vo vt plan results,
      r2.success = false ∧ (r2.files = none ∨ r2.files = some []) := by
  intro r2 hr2
  unfold verifyStage at hr2
  cases vt with
  | true => exact hres r2 (by simpa using hr2)
  | false =>
      simp only [Bool.false_eq_true, if_false] at hr2
      unfold doVerifyChain at hr2
      rcases List.mem_append.mp hr2 with hm | hm
      · exact hres r2 (List.mem_filter.mp hm).1
      · obtain ⟨r0, hr0, hrt⟩ := List.mem_map.mp hm
        have hr0res := hres r0 (List.mem_filter.mp hr0).1
        rw [← hrt]
        unfold verifyOne
        cases plan.subTasks.find? (fun t => t.id == r0.taskId) with
        | none => exact hr0res
        | some t =>
            cases hv : vo r0 with
            | none => exact hr0res
            | some p =>
                obtain ⟨out, fs⟩ := p
                have hfs : fs = [] := hvo r0 out fs hr0res.1 hv
                subst hfs
                exact ⟨hr0res.1, Or.inr rfl⟩

lemma foldl_mergeResult_no_files :
    ∀ (results : List AgentResult) (acc : MergeAcc),
    (∀ r ∈ results, r.files = none ∨ r.files = some []) →
    results.foldl mergeResult acc = acc := by
  intro results
  induction results with
  | nil => intro acc _; rfl
  | cons r rest ih =>
      intro acc h
      simp only [List.foldl_cons]
      have hstep : mergeResult acc r = acc := by
        rcases h r (List.mem_cons_self _ _) with hf | hf
        · exact mergeResult_none acc r hf
        · rw [mergeResult_some acc r [] hf]; rfl
      rw [hstep]
      exact ih acc (fun r2 h2 => h r2 (List.mem_cons_of_mem _ h2))

lemma mergeCore_no_files (results : List AgentResult)
    (h : ∀ r ∈ results, r.files = none ∨ r.files = some []) :
    mergeCore results = ⟨[], []⟩ :=
  foldl_mergeResult_no_files results ⟨[], []⟩ h

lemma combinedOutput_all_failed (results : List AgentResult)
    (h : ∀ r ∈ results, r.success = false) :
    combinedOutput results = "" := by
  unfold combinedOutput
  rw [List.filter_eq_nil_iff.mpr (by intro r hr; simp [h r hr])]
  rfl

lemma merge_files_no_artifacts (log : Bool)
    (resolver : Option (List (String × String)))
    (results : List AgentResult)
    (hfiles : ∀ r ∈ results, r.files = none ∨ r.files = some [])
    (hfail : ∀ r ∈ results, r.success = false) :
    (merge log resolver results).files = [("output.md", "")] := by
  unfold merge
  rw [mergeCore_no_files results hfiles,
    combinedOutput_all_failed results hfail]
  simp

lemma orchestrateCore_ok (plan : TaskPlan) (behavior : Behavior)
    (vo : VerifyOracle) (vt : Bool)
    (resolver : Option (List (String × String))) (log : Bool) :
    orchestrateCore (Except.ok plan) behavior vo vt resolver log
      = match finalVerifySpec (cleanFiles (merge log resolver
          (verifyStage vo vt plan (executeParallel behavior plan))).files) with
        | .error msg => ⟨false, "error", msg, [], [], 0⟩
        | .ok files =>
            ⟨true, plan.projectName, "completed", files,
              verifyStage vo vt plan (executeParallel behavior plan), 0⟩ :=
  rfl

/-- A task that always hits the 60-second timeout. -/
def tTim : SubTask := ⟨"t", "frontend", "never returns", [], "high"⟩

/-- A one-task plan for the timeout scenario. -/
def planTim : TaskPlan := ⟨"proj", "sum", [tTim], [["t"]]⟩

/-- Every execution times out. -/
def behTim : Behavior := fun _ _ => ExecOutcome.timeout

/-- A reviewer reply that attaches an extracted file to any result. -/
def voInject : VerifyOracle := fun _ => some ("fixed", [("App.tsx", "code")])

/-- A reviewer whose provider call always fails. -/
def voNone : VerifyOracle := fun _ => none

/-- C6 counterexample: every executed task failed, yet the returned
result has `success = true` — the verification pass attached
reviewer-extracted files to the failed result, so the final artifact
set is non-empty and no whole-request failure is signalled. -/
theorem c6_claim_counterexample :
    (∀ r ∈ executeParallel behTim planTim, r.success = false) ∧
    (orchestrateCore (Except.ok planTim) behTim voInject false none
      true).success = true := by
  refine ⟨by decide, by decide⟩

/-- C6 (amended): the result carries `success = false` exactly when
decomposition failed or the merged artifact set is empty after the junk
cleanup; the failure result is the single terminal object with the error
message as summary; and when every executed task failed and verification
attached no artifacts to failed tasks, the cleaned artifact set is
indeed empty and the request fails. -/
theorem c6_failure_criterion (dec : Except String TaskPlan)
    (behavior : Behavior) (vo : VerifyOracle) (vt : Bool)
    (resolver : Option (List (String × String))) (log : Bool) :
    (∀ msg, dec = Except.error msg →
      orchestrateCore dec behavior vo vt resolver log
        = ⟨false, "error", msg, [], [], 0⟩) ∧
    ((orchestrateCore dec behavior vo vt resolver log).success = false ↔
      ((∃ msg, dec = Except.error msg) ∨
        (∃ plan, dec = Except.ok plan ∧
          cleanFiles (merge log resolver (verifyStage vo vt plan
            (executeParallel behavior plan))).files = []))) ∧
    (∀ plan, dec = Except.ok plan →
      (∀ r ∈ executeParallel behavior plan, r.success = false) →
      (∀ r out fs, r.success = false → vo r = some (out, fs) → fs = []) →
      (orchestrateCore dec behavior vo vt resolver log).success = false ∧
      (orchestrateCore dec behavior vo vt resolver log).summary
        = "No files generated") := by
  refine ⟨?_, ?_, ?_⟩
  · intro msg h
    rw [h]
    rfl
  · cases hdec : dec with
    | error msg =>
        constructor
        · intro _
          exact Or.inl ⟨msg, rfl⟩
        · intro _
          rfl
    | ok plan =>
        by_cases hemp : cleanFiles (merge log resolver (verifyStage vo vt plan
            (executeParallel behavior plan))).files = []
        · have hfv : finalVerifySpec (cleanFiles (merge log resolver
              (verifyStage vo vt plan (executeParallel behavior plan))).files)
              = Except.error "No files generated" := by
            unfold finalVerifySpec
            rw [hemp]
            rfl
          rw [orchestrateCore_ok, hfv]
          constructor
          · intro _
            exact Or.inr ⟨plan, rfl, hemp⟩
          · intro _
            rfl
        · have hfv : finalVerifySpec (cleanFiles (merge log resolver
              (verifyStage vo vt plan (executeParallel behavior plan))).files)
              = Except.ok (cleanFiles (merge log resolver (verifyStage vo vt
                  plan (executeParallel behavior plan))).files) := by
            unfold finalVerifySpec
            rw [if_neg (by simpa [List.isEmpty_iff] using hemp)]
          rw [orchestrateCore_ok, hfv]
          constructor
          · intro hs
            simp at hs
          · rintro (⟨msg, hmsg⟩ | ⟨plan2, hplan2, hclean2⟩)
            · cases hmsg
            · injection hplan2 with h2
              subst h2
              exact absurd hclean2 hemp
  · intro plan hplan hfail hvo
    have hresfail : ∀ r ∈ executeParallel behavior plan,
        r.success = false ∧ (r.files = none ∨ r.files = some []) := by
      intro r hr
      refine ⟨hfail r hr, ?_⟩
      obtain ⟨prev, task, hrt⟩ := executeParallel_mem behavior plan r hr
      rw [hrt]
      exact runTask_failed_files behavior prev task
        (by rw [← hrt]; exact hfail r hr)
    have hver := verifyStage_failed vo vt plan _ hresfail hvo
    have hmf : (merge log resolver (verifyStage vo vt plan
        (executeParallel behavior plan))).files = [("output.md", "")] :=
      merge_files_no_artifacts log resolver _
        (fun r h => (hver r h).2) (fun r h => (hver r h).1)
    have hclean : cleanFiles [("output.md", "")] = [] := by decide
    have hfv : finalVerifySpec (cleanFiles (merge log resolver
        (verifyStage vo vt plan (executeParallel behavior plan))).files)
        = Except.error "No files generated" := by
      rw [hmf, hclean]
      rfl
    rw [hplan, orchestrateCore_ok, hfv]
    exact ⟨rfl, rfl⟩

/-- Witness for C6 (amended): a one-task plan whose task times out and
whose reviewer call fails yields the terminal failure object. -/
theorem c6_failure_criterion_witness :
    (orchestrateCore (Except.ok planTim) behTim voNone false none
      true).success = false ∧
    (orchestrateCore (Except.ok planTim) behTim voNone false none
      true).summary = "No files generated" := by
  have h := c6_failure_criterion (Except.ok planTim) behTim voNone false
    none true
  exact h.2.2 planTim rfl (by decide) (fun r out fs _ hv => by cases hv)

end Orchestrator
